import Mathlib

/-!
Verification of the bad-roll number-theory / modular-arithmetic library.

The Rust source works with fixed-width machine integers: u128 for unsigned
values and i128 for signed ones.  We embed u128 values as natural numbers and
i128 values as integers; the conversions the source performs with the `as`
operator (which wrap around 2^128) are modelled explicitly by `toI128` and
`toU128` below.  Arithmetic overflow of u128 multiplication is modelled by
reducing the product modulo 2^128 (two's-complement wrap-around semantics);
operations that panic in the source (assertion failures, division by zero,
explicit panic calls) are modelled by returning `none` from an `Option`.
-/

namespace BadRoll

/-- Width of the machine integers used throughout the source. -/
def u128Size : ℕ := 2 ^ 128

/-- Smallest i128 value. -/
def i128Min : ℤ := -(2 ^ 127)

/-- The cast `x as i128` applied to a u128 value: wraps around 2^128. -/
def toI128 (n : ℕ) : ℤ :=
  if n < 2 ^ 127 then (n : ℤ) else (n : ℤ) - 2 ^ 128

/-- The cast `g as u128` applied to an i128 value: wraps around 2^128. -/
def toU128 (g : ℤ) : ℕ :=
  (g % (2 ^ 128)).toNat

/-- The two's-complement wrap of an i128 arithmetic result (the behaviour of
an overflowing i128 operation in release builds). -/
def wrapI128 (z : ℤ) : ℤ :=
  (z + 2 ^ 127) % (2 ^ 128) - 2 ^ 127

/-- Loop of is_prime: trial division by i and i+2 for i = 5, 11, 17, ...
while i * i is at most n (the 6k plus or minus 1 wheel).  The source
evaluates i.pow(2) in u128 before the comparison; for i of at least 2^64
that squaring overflows (panic in debug builds; in release builds it wraps,
so the wheel can overrun its bound and the result is unspecified).  The
overflow is modelled by none; it is reachable only when n is within about
12 * 2^64 of 2^128. -/
def isPrimeLoop (n i : ℕ) : Option Bool :=
  if 2 ^ 128 ≤ i * i then none
  else if h : i * i ≤ n then
    if n % i = 0 ∨ n % (i + 2) = 0 then some false
    else isPrimeLoop n (i + 6)
  else some true
termination_by n + 1 - i
decreasing_by
  have hi : i ≤ n := by
    rcases Nat.eq_zero_or_pos i with h0 | h0
    · omega
    · calc i = i * 1 := (Nat.mul_one i).symm
        _ ≤ i * i := Nat.mul_le_mul_left i h0
        _ ≤ n := h
  omega

/-- is_prime from integer.rs: returns false for 0, 1, larger multiples of 2
and 3, then runs the 6k plus or minus 1 trial-division wheel from 5. -/
def is_prime (n : ℕ) : Option Bool :=
  if n = 0 ∨ n = 1 ∨ (n > 2 ∧ n % 2 = 0) ∨ (n > 3 ∧ n % 3 = 0) then some false
  else isPrimeLoop n 5

/-- Loop of gcd from integer.rs.  Each iteration computes r = a % b BEFORE
testing the exit condition, so a zero b panics with a division by zero
(modelled by none). -/
def gcdLoop (a b : ℕ) : Option ℕ :=
  if _h : b = 0 then none
  else if a % b = 0 then some b
  else gcdLoop b (a % b)
termination_by b
decreasing_by
  exact Nat.mod_lt _ (by omega)

/-- gcd from integer.rs: orders the arguments so that a is at least b, then
runs the Euclidean loop. -/
def gcd (x y : ℕ) : Option ℕ :=
  if x ≥ y then gcdLoop x y else gcdLoop y x

/-- Loop of gcd_with_coefficients (extended Euclid) from integer.rs.  State
(u, g, a, b); each step divides with remainder by b, using the truncated
division and remainder of Rust's i128 arithmetic.  Returns the final (g, u). -/
def egcdLoop (u g a b : ℤ) : ℤ × ℤ :=
  if b = 0 then (g, u)
  else egcdLoop a b (u - g.tdiv b * a) (g.tmod b)
termination_by b.natAbs
decreasing_by
  have h1 : (g.tmod b).natAbs = g.natAbs % b.natAbs := by
    cases g <;> cases b <;> simp [Int.tmod] <;> rfl
  have h2 : 0 < b.natAbs := Int.natAbs_pos.mpr (by assumption)
  simp only [h1]
  exact Nat.mod_lt _ h2

/-- gcd_with_coefficients from integer.rs.  The u128 inputs are cast to i128
(wrapping), the loop computes (g, u), and the final coefficient v is
(g - x as i128 * u) / y, a division that panics when y = 0 (modelled by
none).  The product x as i128 * u and the subtraction are i128 operations:
on overflow they wrap (two's complement, the release behaviour), modelled by
wrapI128.  The returned g is cast back to u128. -/
def gcd_with_coefficients (x y : ℕ) : Option (ℕ × ℤ × ℤ) :=
  if y = 0 then none
  else
    let xi := toI128 x
    let yi := toI128 y
    let r := egcdLoop 1 xi 0 yi
    some (toU128 r.1, r.2, (wrapI128 (r.1 - wrapI128 (xi * r.2))).tdiv yi)

/-- First loop of isqrt from integer.rs: shrink d (a power of four, starting
at 2^126) until it is at most n. -/
def isqrtShrink (n d : ℕ) : ℕ :=
  if _h : d > n then isqrtShrink n (d / 4) else d
termination_by d
decreasing_by
  exact Nat.div_lt_self (by omega) (by omega)

/-- Main loop of isqrt from integer.rs: binary digit-by-digit square-root
extraction on state (x, c, d), where d scans down through powers of four. -/
def isqrtLoop (x c d : ℕ) : ℕ :=
  if _h : d = 0 then c
  else if x ≥ c + d then isqrtLoop (x - (c + d)) (c / 2 + d) (d / 4)
  else isqrtLoop x (c / 2) (d / 4)
termination_by d
decreasing_by
  · exact Nat.div_lt_self (by omega) (by omega)
  · exact Nat.div_lt_self (by omega) (by omega)

/-- isqrt from integer.rs: integer square root without floating point. -/
def isqrt (n : ℕ) : ℕ :=
  isqrtLoop n 0 (isqrtShrink n (2 ^ 126))

/-- Inner while-loop of prime_factorize: divide out the factor i from n as
long as it divides, returning the multiplicity and the reduced n.  The source
loops while n % i = 0; the guards 2 <= i and n not 0 always hold at its call
sites and make the recursion well-founded. -/
def divideOut (i n : ℕ) : ℕ × ℕ :=
  if h : 2 ≤ i ∧ n ≠ 0 ∧ i ∣ n then
    let r := divideOut i (n / i)
    (r.1 + 1, r.2)
  else (0, n)
termination_by n
decreasing_by
  exact Nat.div_lt_self (by omega) (by omega)

/-- The for-loop of prime_factorize: i scans 2, 3, ..., bound (the bound
is isqrt of the ORIGINAL n, evaluated once before the loop, exactly as the
Rust range 2..(isqrt(n) + 1) is).  Returns the list of (factor, multiplicity)
pairs pushed and the final reduced n. -/
def factorLoop (bound i n : ℕ) : List (ℕ × ℕ) × ℕ :=
  if _h : i > bound then ([], n)
  else
    let d := divideOut i n
    let rest := factorLoop bound (i + 1) d.2
    (if d.1 > 0 then (i, d.1) :: rest.1 else rest.1, rest.2)
termination_by bound + 1 - i
decreasing_by
  omega

/-- prime_factorize from integer.rs: asserts n is positive (none models the
panic on 0), trial-divides up to isqrt n, and pushes the remaining cofactor
with exponent 1 when it exceeds 1. -/
def prime_factorize (n : ℕ) : Option (List (ℕ × ℕ)) :=
  if n = 0 then none
  else
    let r := factorLoop (isqrt n) 2 n
    some (if r.2 > 1 then r.1 ++ [(r.2, 1)] else r.1)

/-- euler_totient from integer.rs: starts phi at n and, for every prime
factor (p, e) of n, divides p^e out of a running copy of n (dead state in
the source, kept for fidelity) and subtracts phi / p from phi. -/
def euler_totient (n : ℕ) : Option ℕ :=
  (prime_factorize n).map fun l =>
    (l.foldl (fun (st : ℕ × ℕ) pe => (st.1 / pe.1 ^ pe.2, st.2 - st.2 / pe.1)) (n, n)).2

/-- An element of Z/nZ as represented in modular.rs: a value and a modulus,
both u128 in the source. -/
structure Residue where
  value : ℕ
  modulus : ℕ
deriving DecidableEq

/-- Validity invariant checked by Residue::assert_valid. -/
def Residue.valid (a : Residue) : Prop :=
  a.value < a.modulus

instance (a : Residue) : Decidable a.valid := by
  unfold Residue.valid
  infer_instance

/-- Residue::from_unsigned_integer: u128 rem_euclid, which panics when the
modulus is 0 (modelled by none). -/
def from_unsigned_integer (n modulus : ℕ) : Option Residue :=
  if modulus = 0 then none
  else some ⟨n % modulus, modulus⟩

/-- Residue::from_signed_integer: the u128 modulus is cast to i128 (wrapping
for moduli of at least 2^127), then i128 rem_euclid is applied.  rem_euclid
panics when the cast modulus is 0, or (overflow inside rem_euclid) when the
cast modulus is -1 and n is i128 minimum; otherwise it returns the remainder
of n modulo the absolute value of the cast modulus, which the source then
casts back to u128 (always exact since the remainder is small). -/
def from_signed_integer (n : ℤ) (modulus : ℕ) : Option Residue :=
  let m := toI128 modulus
  if m = 0 then none
  else if m = -1 ∧ n = i128Min then none
  else some ⟨(n % (m.natAbs : ℤ)).toNat, modulus⟩

/-- Residue::times: asserts both operands valid and the moduli equal, then
reduces the u128 product (which wraps around 2^128) with
from_unsigned_integer. -/
def times (a b : Residue) : Option Residue :=
  if a.valid ∧ b.valid ∧ a.modulus = b.modulus then
    from_unsigned_integer (a.value * b.value % u128Size) a.modulus
  else none

/-- Residue::scalar_times: asserts validity, then reduces
scalar * (value as i128) with from_signed_integer.  The i128 product wraps
around 2^128 on overflow (two's complement), modelled by wrapI128. -/
def scalar_times (a : Residue) (scalar : ℤ) : Option Residue :=
  if a.valid then
    from_signed_integer (wrapI128 (scalar * toI128 a.value)) a.modulus
  else none

/-- Residue::inv: asserts validity, runs extended Euclid on (value, modulus),
succeeds only when the returned g is 1 (otherwise the source panics with a
non-invertible element message, modelled by none). -/
def inv (a : Residue) : Option Residue :=
  if a.valid then
    match gcd_with_coefficients a.value a.modulus with
    | none => none
    | some (g, u, _v) =>
      if g = 1 then from_signed_integer u a.modulus else none
  else none

/-- The square-and-multiply loop of Residue::pow, for a nonnegative exponent
e: while e > 0, multiply the accumulator b by a when e is odd, square a, and
halve e. -/
def powLoop (a b : Residue) (e : ℕ) : Option Residue :=
  if _h : e = 0 then some b
  else
    match (if e % 2 = 1 then times b a else some b) with
    | none => none
    | some b' =>
      match times a a with
      | none => none
      | some a' => powLoop a' b' (e / 2)
termination_by e
decreasing_by
  exact Nat.div_lt_self (by omega) (by omega)

/-- Residue::pow: asserts validity; a negative exponent is handled as
inv().pow(-e).  Negating the smallest i128 overflows: the source panics in
debug builds (and in release builds wraps to the same negative value and
recurses forever); modelled by none. -/
def pow (a : Residue) (e : ℤ) : Option Residue :=
  if a.valid then
    if e < 0 then
      if e = i128Min then none
      else
        match inv a with
        | none => none
        | some b => pow b (-e)
    else
      match from_unsigned_integer 1 a.modulus with
      | none => none
      | some one => powLoop a one e.toNat
  else none
termination_by if e < 0 then 1 else 0
decreasing_by
  simp_all
  omega

/-- The candidate-testing loop of Residue::primitive_root.  The source draws
uniform random candidates in [1, modulus) forever; we model the random
source as an explicit list of draws, reduced by from_unsigned_integer exactly
as the source does, and return none when the list is exhausted.  A candidate
is accepted when its power (phi / p) as i128 (a wrapping u128-to-i128 cast,
modelled by toI128) differs from the residue one for every prime divisor p
of phi. -/
def primitive_root_loop (modulus phi : ℕ) (primes : List ℕ) (one : Residue) :
    List ℕ → Option Residue
  | [] => none
  | d :: rest =>
    match from_unsigned_integer d modulus with
    | none => none
    | some n =>
      if primes.all fun p => decide ¬(pow n (toI128 (phi / p)) = some one) then some n
      else primitive_root_loop modulus phi primes one rest

/-- Residue::primitive_root: panics unless is_prime returns true for the
modulus (none both for a composite modulus and when is_prime itself panics),
then computes phi, the distinct prime divisors of phi, and searches random
candidates with primitive_root_loop. -/
def primitive_root (modulus : ℕ) (draws : List ℕ) : Option Residue :=
  match is_prime modulus with
  | some true =>
    (match euler_totient modulus with
    | none => none
    | some phi =>
      match prime_factorize phi with
      | none => none
      | some l =>
        match from_unsigned_integer 1 modulus with
        | none => none
        | some one => primitive_root_loop modulus phi (l.map Prod.fst) one draws)
  | _ => none

/-- compute_shared_secret from diffie_hellman.rs: raise the other party's
shared value to one's own private secret. -/
def compute_shared_secret (private_secret : ℤ) (other_shared_value : Residue) :
    Option Residue :=
  pow other_shared_value private_secret

/-- Fuel-indexed exact modular square-and-multiply: an executable companion
used to evaluate b * a ^ e % m at concrete inputs whose exponent is far too
large for direct kernel exponentiation.  Structural recursion on the fuel so
the kernel can reduce it. -/
def powModFuel (m : ℕ) : ℕ → ℕ → ℕ → ℕ → ℕ
  | 0, _a, b, _e => b
  | fuel + 1, a, b, e =>
    if e = 0 then b
    else powModFuel m fuel (a * a % m) (if e % 2 = 1 then b * a % m else b) (e / 2)

/-- Fuel-indexed companion of powLoop: the same square-and-multiply loop with
the u128 wrap of times (product reduced mod 2^128 before the modulus), as
structural recursion on the fuel so the kernel can evaluate it at concrete
inputs. -/
def powWrapFuel (m : ℕ) : ℕ → ℕ → ℕ → ℕ → ℕ
  | 0, _a, b, _e => b
  | fuel + 1, a, b, e =>
    if e = 0 then b
    else powWrapFuel m fuel (a * a % u128Size % m)
      (if e % 2 = 1 then b * a % u128Size % m else b) (e / 2)

/-! ## Basic facts about the casts -/

theorem toI128_of_lt {n : ℕ} (h : n < 2 ^ 127) : toI128 n = (n : ℤ) := by
  unfold toI128
  rw [if_pos h]

theorem toU128_of_natCast {n : ℕ} (h : n < 2 ^ 128) : toU128 (n : ℤ) = n := by
  unfold toU128
  rw [Int.emod_eq_of_lt (by positivity) (by exact_mod_cast h)]
  simp

/-! ## Extended Euclid (gcd_with_coefficients) -/

theorem tmod_natAbs (g b : ℤ) : (g.tmod b).natAbs = g.natAbs % b.natAbs := by
  cases g <;> cases b <;> simp [Int.tmod] <;> rfl

theorem egcdLoop_stop (u g a : ℤ) : egcdLoop u g a 0 = (g, u) := by
  rw [egcdLoop.eq_def]
  simp

theorem egcdLoop_next (u g a b : ℤ) (hb : b ≠ 0) :
    egcdLoop u g a b = egcdLoop a b (u - g.tdiv b * a) (g.tmod b) := by
  rw [egcdLoop.eq_def]
  simp [hb]

theorem egcdLoop_spec (x y : ℕ) :
    ∀ u g a b : ℤ, 0 ≤ g → 0 ≤ b →
      (∃ c : ℤ, g = u * x + c * y) → (∃ d : ℤ, b = a * x + d * y) →
      Int.gcd g b = Nat.gcd x y →
      (egcdLoop u g a b).1 = (Nat.gcd x y : ℤ) ∧
        ∃ c : ℤ, (egcdLoop u g a b).1 = (egcdLoop u g a b).2 * x + c * y := by
  intro u g a b
  induction u, g, a, b using egcdLoop.induct with
  | case1 u g a =>
    intro hg _ hbez _ hgcd
    rw [egcdLoop_stop]
    constructor
    · have h1 : g.natAbs = Nat.gcd x y := by
        simpa [Int.gcd] using hgcd
      have h2 : (g.natAbs : ℤ) = g := Int.natAbs_of_nonneg hg
      simp only [← h1, h2]
    · obtain ⟨c, hc⟩ := hbez
      exact ⟨c, hc⟩
  | case2 u g a b hb ih =>
    intro hg hb0 hbez hbez2 hgcd
    obtain ⟨c, hc⟩ := hbez
    obtain ⟨d, hd⟩ := hbez2
    rw [egcdLoop_next u g a b hb]
    apply ih
    · exact hb0
    · exact Int.tmod_nonneg b hg
    · exact ⟨d, hd⟩
    · refine ⟨c - g.tdiv b * d, ?_⟩
      have hsplit : g.tmod b = g - b * g.tdiv b := by
        have := Int.tmod_add_tdiv g b
        linarith
      rw [hsplit, hc, hd]
      ring
    · rw [← hgcd]
      show Nat.gcd b.natAbs (g.tmod b).natAbs = Nat.gcd g.natAbs b.natAbs
      rw [tmod_natAbs]
      rw [Nat.gcd_comm b.natAbs, ← Nat.gcd_rec, Nat.gcd_comm]

theorem wrapI128_of_bounds {z : ℤ} (h1 : -(2 ^ 127) ≤ z) (h2 : z < 2 ^ 127) :
    wrapI128 z = z := by
  unfold wrapI128
  rw [Int.emod_eq_of_lt (by omega) (by omega)]
  omega

theorem egcdLoop_coeff_bound (y : ℕ) : ∀ u g a b : ℤ,
    0 ≤ g → 0 ≤ b → u * a ≤ 0 →
    (a.natAbs : ℤ) * g + (u.natAbs : ℤ) * b = (y : ℤ) →
    u.natAbs ≤ y → (g = 0 → a = 0) →
    (egcdLoop u g a b).2.natAbs ≤ y := by
  intro u g a b
  induction u, g, a, b using egcdLoop.induct with
  | case1 u g a =>
    intro _ _ _ _ hu _
    rw [egcdLoop_stop]
    exact hu
  | case2 u g a b hb ih =>
    intro hg hb0 hsign hid hu hg0
    rw [egcdLoop_next u g a b hb]
    have hq0 : 0 ≤ g.tdiv b := Int.tdiv_nonneg hg hb0
    have hsplit : g.tmod b = g - b * g.tdiv b := by
      have := Int.tmod_add_tdiv g b
      linarith
    have hqa : u * (g.tdiv b * a) ≤ 0 := by
      have h1 : g.tdiv b * (u * a) ≤ 0 :=
        mul_nonpos_of_nonneg_of_nonpos hq0 hsign
      calc u * (g.tdiv b * a) = g.tdiv b * (u * a) := by ring
        _ ≤ 0 := h1
    have habs_sub : (u - g.tdiv b * a).natAbs
        = u.natAbs + (g.tdiv b * a).natAbs := by
      rcases mul_nonpos_iff.mp hqa with ⟨h1, h2⟩ | ⟨h1, h2⟩ <;> omega
    have habs_mul : ((g.tdiv b * a).natAbs : ℤ) = g.tdiv b * (a.natAbs : ℤ) := by
      rw [Int.natAbs_mul]
      push_cast
      rw [abs_of_nonneg hq0]
    have hanew : a.natAbs ≤ y := by
      rcases eq_or_lt_of_le hg with hg' | hg'
      · have := hg0 hg'.symm
        simp [this]
      · have h1 : (a.natAbs : ℤ) * 1 ≤ (a.natAbs : ℤ) * g := by
          apply mul_le_mul_of_nonneg_left (by omega) (by positivity)
        have h2 : (0 : ℤ) ≤ (u.natAbs : ℤ) * b :=
          mul_nonneg (by positivity) hb0
        have h3 : (a.natAbs : ℤ) ≤ (y : ℤ) := by linarith
        exact_mod_cast h3
    apply ih
    · exact hb0
    · exact Int.tmod_nonneg b hg
    · have h1 : a * (u - g.tdiv b * a) = u * a - g.tdiv b * (a * a) := by ring
      have h2 : 0 ≤ g.tdiv b * (a * a) :=
        mul_nonneg hq0 (mul_self_nonneg a)
      rw [h1]
      linarith
    · rw [habs_sub, Nat.cast_add, habs_mul, hsplit]
      linear_combination hid
    · exact hanew
    · intro hbz
      exact absurd hbz hb

theorem gcd_with_coefficients_gu (x y : ℕ) (hx : x < 2 ^ 127) (hy1 : y < 2 ^ 127)
    (hy : y ≠ 0) :
    ∃ u v c : ℤ, gcd_with_coefficients x y = some (Nat.gcd x y, u, v) ∧
      u * x + c * y = (Nat.gcd x y : ℤ) := by
  have hloop := egcdLoop_spec x y 1 x 0 y (by positivity) (by positivity)
    ⟨0, by ring⟩ ⟨1, by ring⟩ (Int.gcd_natCast_natCast x y)
  obtain ⟨h1, c, h2⟩ := hloop
  have hg : toU128 (egcdLoop 1 (x : ℤ) 0 y).1 = Nat.gcd x y := by
    rw [h1]
    refine toU128_of_natCast ?_
    have hle : Nat.gcd x y ≤ y := Nat.gcd_le_right y (Nat.pos_of_ne_zero hy)
    calc Nat.gcd x y ≤ y := hle
      _ < 2 ^ 127 := hy1
      _ < 2 ^ 128 := by norm_num
  have heq : gcd_with_coefficients x y
      = some (Nat.gcd x y, (egcdLoop 1 (x : ℤ) 0 (y : ℤ)).2,
        (wrapI128 ((egcdLoop 1 (x : ℤ) 0 (y : ℤ)).1
          - wrapI128 ((x : ℤ) * (egcdLoop 1 (x : ℤ) 0 (y : ℤ)).2))).tdiv (y : ℤ)) := by
    unfold gcd_with_coefficients
    rw [if_neg hy, toI128_of_lt hx, toI128_of_lt hy1]
    simp only [hg]
  exact ⟨_, _, c, heq, by rw [← h1, h2]⟩

theorem gcd_with_coefficients_spec (x y : ℕ) (hx : x < 2 ^ 127) (hy1 : y < 2 ^ 127)
    (hy : y ≠ 0) (hxy : x * y < 2 ^ 126) :
    ∃ u v : ℤ, gcd_with_coefficients x y = some (Nat.gcd x y, u, v) ∧
      u * x + v * y = (Nat.gcd x y : ℤ) := by
  have hloop := egcdLoop_spec x y 1 x 0 y (by positivity) (by positivity)
    ⟨0, by ring⟩ ⟨1, by ring⟩ (Int.gcd_natCast_natCast x y)
  obtain ⟨h1, c, h2⟩ := hloop
  have hyz : (y : ℤ) ≠ 0 := by exact_mod_cast hy
  have hub : (egcdLoop 1 (x : ℤ) 0 (y : ℤ)).2.natAbs ≤ y := by
    refine egcdLoop_coeff_bound y 1 x 0 y (by positivity) (by positivity) (by simp) ?_
      (by simpa using Nat.one_le_iff_ne_zero.mpr hy) (by intro h0; rfl)
    simp
  have hprod_le : ((x : ℤ) * (egcdLoop 1 (x : ℤ) 0 (y : ℤ)).2).natAbs ≤ x * y := by
    rw [Int.natAbs_mul, Int.natAbs_ofNat]
    exact Nat.mul_le_mul_left x hub
  have hw1 : wrapI128 ((x : ℤ) * (egcdLoop 1 (x : ℤ) 0 (y : ℤ)).2)
      = (x : ℤ) * (egcdLoop 1 (x : ℤ) 0 (y : ℤ)).2 := by
    apply wrapI128_of_bounds <;> omega
  have hgabs : (egcdLoop 1 (x : ℤ) 0 (y : ℤ)).1.natAbs ≤ y := by
    rw [h1, Int.natAbs_ofNat]
    exact Nat.gcd_le_right y (Nat.pos_of_ne_zero hy)
  have hsum : y + x * y < 2 ^ 127 := by
    rcases Nat.eq_zero_or_pos x with hx0 | hx0
    · subst hx0
      simpa using hy1
    · have hyle : y ≤ x * y := Nat.le_mul_of_pos_left y hx0
      omega
  have hw2 : wrapI128 ((egcdLoop 1 (x : ℤ) 0 (y : ℤ)).1
      - (x : ℤ) * (egcdLoop 1 (x : ℤ) 0 (y : ℤ)).2)
      = (egcdLoop 1 (x : ℤ) 0 (y : ℤ)).1
        - (x : ℤ) * (egcdLoop 1 (x : ℤ) 0 (y : ℤ)).2 := by
    have h3 := Int.natAbs_sub_le (egcdLoop 1 (x : ℤ) 0 (y : ℤ)).1
      ((x : ℤ) * (egcdLoop 1 (x : ℤ) 0 (y : ℤ)).2)
    apply wrapI128_of_bounds <;> omega
  refine ⟨(egcdLoop 1 x 0 y).2, c, ?_, ?_⟩
  · unfold gcd_with_coefficients
    rw [if_neg hy, toI128_of_lt hx, toI128_of_lt hy1]
    have hv : (wrapI128 ((egcdLoop 1 (x : ℤ) 0 y).1
        - wrapI128 ((x : ℤ) * (egcdLoop 1 (x : ℤ) 0 y).2))).tdiv y = c := by
      rw [hw1, hw2]
      have hnum : (egcdLoop 1 (x : ℤ) 0 y).1 - (x : ℤ) * (egcdLoop 1 (x : ℤ) 0 y).2
          = c * y := by
        rw [h2]; ring
      rw [hnum, Int.mul_tdiv_cancel c hyz]
    have hg : toU128 (egcdLoop 1 (x : ℤ) 0 y).1 = Nat.gcd x y := by
      rw [h1]
      refine toU128_of_natCast ?_
      have hle : Nat.gcd x y ≤ y := Nat.gcd_le_right y (Nat.pos_of_ne_zero hy)
      calc Nat.gcd x y ≤ y := hle
        _ < 2 ^ 127 := hy1
        _ < 2 ^ 128 := by norm_num
    simp only [hv, hg]
  · rw [← h1, h2]

/-! ## The plain gcd -/

theorem gcdLoop_spec : ∀ a b : ℕ, b ≠ 0 → gcdLoop a b = some (Nat.gcd a b) := by
  intro a b
  induction a, b using gcdLoop.induct with
  | case1 a => intro hb; exact absurd rfl hb
  | case2 a b hb hmod =>
    intro _
    rw [gcdLoop.eq_def]
    simp only [hb, dite_false, hmod, if_true, if_pos]
    have hdvd : b ∣ a := Nat.dvd_of_mod_eq_zero hmod
    rw [Nat.gcd_eq_right hdvd]
  | case3 a b hb hmod ih =>
    intro _
    rw [gcdLoop.eq_def]
    simp only [hb, dite_false, hmod, if_false, if_neg]
    rw [ih hmod]
    rw [Nat.gcd_comm b (a % b), ← Nat.gcd_rec, Nat.gcd_comm]

theorem gcd_spec (x y : ℕ) (hx : x ≠ 0) (hy : y ≠ 0) : gcd x y = some (Nat.gcd x y) := by
  unfold gcd
  by_cases h : x ≥ y
  · rw [if_pos h, gcdLoop_spec x y hy]
  · rw [if_neg h, gcdLoop_spec y x hx, Nat.gcd_comm]

/-! ## Claims C1 and C7 -/

/-- C1: for all u128 pairs (x, y) with y nonzero whose product is below
2^126 (a range on which every i128 intermediate of the final coefficient
computation, in particular the product x as i128 * u with the Bezout bound
of u at most y, is exact), gcd_with_coefficients returns a triple (g, u, v)
with u*x + v*y = g and g = gcd(x, y).  (The original claim also covered
y = 0, which the source cannot handle — see the counterexample — and larger
pairs such as consecutive Fibonacci numbers near 2^66, for which the i128
product x * u overflows, so the source panics in debug builds or wraps and
returns a coefficient v violating the Bezout identity in release builds.) -/
theorem C1_gcd_with_coefficients_bezout (x y : ℕ) (hx : x < 2 ^ 127)
    (hy1 : y < 2 ^ 127) (hy : y ≠ 0) (hxy : x * y < 2 ^ 126) :
    ∃ g : ℕ, ∃ u v : ℤ, gcd_with_coefficients x y = some (g, u, v) ∧
      u * x + v * y = (g : ℤ) ∧ g = Nat.gcd x y := by
  obtain ⟨u, v, h1, h2⟩ := gcd_with_coefficients_spec x y hx hy1 hy hxy
  exact ⟨Nat.gcd x y, u, v, h1, h2, rfl⟩

/-- C1 witness: the spec test vector (527, 1258). -/
theorem C1_witness :
    (527 : ℕ) < 2 ^ 127 ∧ (1258 : ℕ) < 2 ^ 127 ∧ (1258 : ℕ) ≠ 0 ∧
      527 * 1258 < 2 ^ 126 ∧
      ∃ g : ℕ, ∃ u v : ℤ, gcd_with_coefficients 527 1258 = some (g, u, v) ∧
        u * 527 + v * 1258 = (g : ℤ) ∧ g = Nat.gcd 527 1258 :=
  ⟨by norm_num, by norm_num, by norm_num, by norm_num,
    C1_gcd_with_coefficients_bezout 527 1258 (by norm_num) (by norm_num)
      (by norm_num) (by norm_num)⟩

/-- C1 counterexample: with y = 0 the computation of the coefficient v
divides by zero and the source panics, so no triple is returned for (5, 0);
the claim demanded correct signed coefficients also when y = 0. -/
theorem C1_counterexample : gcd_with_coefficients 5 0 = none := rfl

/-- C7: gcd returns the greatest common divisor whenever both arguments are
nonzero.  (The original claim also asserted gcd(x, 0) = x, which the source
cannot produce: see the counterexample.) -/
theorem C7_gcd_correct (x y : ℕ) (hx : x ≠ 0) (hy : y ≠ 0) :
    gcd x y = some (Nat.gcd x y) :=
  gcd_spec x y hx hy

/-- C7 witness: gcd 24 15 computes 3. -/
theorem C7_witness : (24 : ℕ) ≠ 0 ∧ (15 : ℕ) ≠ 0 ∧ gcd 24 15 = some (Nat.gcd 24 15) :=
  ⟨by norm_num, by norm_num, C7_gcd_correct 24 15 (by norm_num) (by norm_num)⟩

/-- C7 counterexample: gcd(5, 0) computes 5 % 0 before testing the exit
condition, so the source panics with a remainder by zero instead of
returning 5 as the claim states. -/
theorem C7_counterexample : gcd 5 0 = none := by
  unfold gcd
  rw [if_pos (by norm_num)]
  rw [gcdLoop.eq_def]
  simp

/-! ## Correctness of isqrt -/

theorem isqrtShrink_gt {n d : ℕ} (h : d > n) : isqrtShrink n d = isqrtShrink n (d / 4) := by
  rw [isqrtShrink.eq_def]
  simp [h]

theorem isqrtShrink_le {n d : ℕ} (h : ¬d > n) : isqrtShrink n d = d := by
  rw [isqrtShrink.eq_def]
  simp [h]

theorem isqrtLoop_stop (x c : ℕ) : isqrtLoop x c 0 = c := by
  rw [isqrtLoop.eq_def]
  simp

theorem isqrtLoop_ge {x c d : ℕ} (hd : d ≠ 0) (hx : x ≥ c + d) :
    isqrtLoop x c d = isqrtLoop (x - (c + d)) (c / 2 + d) (d / 4) := by
  rw [isqrtLoop.eq_def]
  simp [hd, hx]

theorem isqrtLoop_lt {x c d : ℕ} (hd : d ≠ 0) (hx : ¬x ≥ c + d) :
    isqrtLoop x c d = isqrtLoop x (c / 2) (d / 4) := by
  rw [isqrtLoop.eq_def]
  simp [hd, hx]

theorem isqrtShrink_zero : ∀ k : ℕ, isqrtShrink 0 (4 ^ k) = 0 := by
  intro k
  induction k with
  | zero =>
    rw [show (4 : ℕ) ^ 0 = 1 by norm_num, isqrtShrink_gt (by norm_num)]
    rw [show (1 : ℕ) / 4 = 0 by norm_num, isqrtShrink_le (by norm_num)]
  | succ k ih =>
    rw [isqrtShrink_gt (by positivity), show (4 : ℕ) ^ (k + 1) / 4 = 4 ^ k by
      rw [pow_succ, Nat.mul_div_cancel _ (by norm_num)]]
    exact ih

theorem isqrtShrink_spec : ∀ k n : ℕ, 0 < n → n < 4 ^ (k + 1) →
    ∃ m : ℕ, isqrtShrink n (4 ^ k) = 4 ^ m ∧ 4 ^ m ≤ n ∧ n < 4 ^ (m + 1) := by
  intro k
  induction k with
  | zero =>
    intro n hn hn4
    refine ⟨0, ?_, by simpa using hn, by simpa using hn4⟩
    rw [isqrtShrink_le (by simp only [pow_zero]; omega)]
  | succ k ih =>
    intro n hn hn4
    by_cases h : 4 ^ (k + 1) ≤ n
    · exact ⟨k + 1, isqrtShrink_le (by omega), h, hn4⟩
    · rw [isqrtShrink_gt (by omega), show (4 : ℕ) ^ (k + 1) / 4 = 4 ^ k by
        rw [pow_succ, Nat.mul_div_cancel _ (by norm_num)]]
      exact ih n hn (by omega)

theorem isqrtLoop_bounds : ∀ m p x n : ℕ, x + p * p = n →
    n < (p + 2 ^ (m + 1)) * (p + 2 ^ (m + 1)) →
    isqrtLoop x (p * 2 ^ (m + 1)) (4 ^ m) * isqrtLoop x (p * 2 ^ (m + 1)) (4 ^ m) ≤ n ∧
      n < (isqrtLoop x (p * 2 ^ (m + 1)) (4 ^ m) + 1) *
        (isqrtLoop x (p * 2 ^ (m + 1)) (4 ^ m) + 1) := by
  intro m
  induction m with
  | zero =>
    intro p x n hx hub
    rw [show (2 : ℕ) ^ (0 + 1) = 2 by norm_num] at hub ⊢
    rw [show (4 : ℕ) ^ 0 = 1 by norm_num]
    by_cases hb : x ≥ p * 2 + 1
    · rw [isqrtLoop_ge (by norm_num) (by omega)]
      rw [show p * 2 / 2 + 1 = p + 1 by omega, show (1 : ℕ) / 4 = 0 by norm_num,
        isqrtLoop_stop]
      constructor
      · nlinarith
      · nlinarith
    · rw [isqrtLoop_lt (by norm_num) (by omega)]
      rw [show p * 2 / 2 = p by omega, show (1 : ℕ) / 4 = 0 by norm_num, isqrtLoop_stop]
      constructor
      · nlinarith
      · nlinarith
  | succ m ih =>
    intro p x n hx hub
    have hq : (4 : ℕ) ^ (m + 1) = 2 ^ (m + 1) * 2 ^ (m + 1) := by
      rw [show (4 : ℕ) = 2 * 2 by norm_num, Nat.mul_pow]
    have hd4 : (4 : ℕ) ^ (m + 1) / 4 = 4 ^ m := by
      rw [pow_succ, Nat.mul_div_cancel _ (by norm_num)]
    have hc2 : p * 2 ^ (m + 1 + 1) / 2 = p * 2 ^ (m + 1) := by
      rw [pow_succ, ← Nat.mul_assoc, Nat.mul_div_cancel _ (by norm_num)]
    by_cases hb : x ≥ p * 2 ^ (m + 1 + 1) + 4 ^ (m + 1)
    · rw [isqrtLoop_ge (by positivity) (by omega)]
      rw [hd4]
      have hc : p * 2 ^ (m + 1 + 1) / 2 + 4 ^ (m + 1) = (p + 2 ^ (m + 1)) * 2 ^ (m + 1) := by
        rw [hc2, hq]; ring
      rw [hc]
      refine ih (p + 2 ^ (m + 1)) (x - (p * 2 ^ (m + 1 + 1) + 4 ^ (m + 1))) n ?_ ?_
      · have hexp : (p + 2 ^ (m + 1)) * (p + 2 ^ (m + 1))
            = p * p + p * 2 ^ (m + 1 + 1) + 4 ^ (m + 1) := by
          rw [hq, pow_succ]; ring
        omega
      · have hexp2 : (p + 2 ^ (m + 1) + 2 ^ (m + 1)) = p + 2 ^ (m + 1 + 1) := by
          rw [pow_succ]; ring
        rw [hexp2]
        exact hub
    · rw [isqrtLoop_lt (by positivity) (by omega)]
      rw [hd4, hc2]
      refine ih p x n hx ?_
      have hexp : (p + 2 ^ (m + 1)) * (p + 2 ^ (m + 1))
          = p * p + p * 2 ^ (m + 1 + 1) + 4 ^ (m + 1) := by
        rw [hq, pow_succ]; ring
      omega

theorem isqrt_eq_sqrt (n : ℕ) (hn : n < 2 ^ 128) : isqrt n = Nat.sqrt n := by
  unfold isqrt
  rcases Nat.eq_zero_or_pos n with h0 | h0
  · subst h0
    rw [show (2 : ℕ) ^ 126 = 4 ^ 63 by norm_num, isqrtShrink_zero, isqrtLoop_stop]
    simp
  · obtain ⟨m, hm, hml, hmu⟩ := isqrtShrink_spec 63 n h0
      (by calc n < 2 ^ 128 := hn
            _ = 4 ^ (63 + 1) := by norm_num)
    rw [show (2 : ℕ) ^ 126 = 4 ^ 63 by norm_num, hm]
    have hb := isqrtLoop_bounds m 0 n n (by ring) (by
      have : (0 + 2 ^ (m + 1)) * (0 + 2 ^ (m + 1)) = 4 ^ (m + 1) := by
        rw [show (4 : ℕ) ^ (m + 1) = 2 ^ (m + 1) * 2 ^ (m + 1) by
          rw [show (4 : ℕ) = 2 * 2 by norm_num, Nat.mul_pow]]
        ring
      omega)
    rw [show (0 : ℕ) * 2 ^ (m + 1) = 0 by ring] at hb
    obtain ⟨hle, hlt⟩ := hb
    have h1 : isqrtLoop n 0 (4 ^ m) ≤ Nat.sqrt n := Nat.le_sqrt.mpr hle
    have h2 : Nat.sqrt n ≤ isqrtLoop n 0 (4 ^ m) :=
      Nat.lt_succ_iff.mp (Nat.sqrt_lt.mpr hlt)
    omega

theorem le_isqrt {a n : ℕ} (hn : n < 2 ^ 128) (h : a * a ≤ n) : a ≤ isqrt n := by
  rw [isqrt_eq_sqrt n hn]
  exact Nat.le_sqrt.mpr h

theorem isqrt_lt_of_lt {a n : ℕ} (hn : n < 2 ^ 128) (h : n < a * a) : isqrt n < a := by
  rw [isqrt_eq_sqrt n hn]
  exact Nat.sqrt_lt.mpr h

/-! ## Correctness of prime_factorize -/

theorem divideOut_spec (i : ℕ) : ∀ n : ℕ, 2 ≤ i → n ≠ 0 →
    (divideOut i n).2 * i ^ (divideOut i n).1 = n ∧ ¬i ∣ (divideOut i n).2 ∧
      (divideOut i n).2 ≠ 0 := by
  intro n
  induction n using divideOut.induct i with
  | case1 n h ih =>
    intro _ _
    obtain ⟨hi, hn, hdvd⟩ := h
    have hni : n / i ≠ 0 := by
      have hle : i ≤ n := Nat.le_of_dvd (Nat.pos_of_ne_zero hn) hdvd
      have := Nat.div_pos hle (by omega)
      omega
    obtain ⟨ha, hb, hc⟩ := ih hi hni
    have hstep : divideOut i n = ((divideOut i (n / i)).1 + 1, (divideOut i (n / i)).2) := by
      rw [divideOut.eq_def]
      simp [hi, hn, hdvd]
    rw [hstep]
    refine ⟨?_, hb, hc⟩
    simp only
    rw [pow_succ, ← Nat.mul_assoc, ha, Nat.div_mul_cancel hdvd]
  | case2 n h =>
    intro hi hn
    have hnd : ¬i ∣ n := by
      intro hd
      exact h ⟨hi, hn, hd⟩
    have hstep : divideOut i n = (0, n) := by
      rw [divideOut.eq_def]
      simp [h]
    rw [hstep]
    simpa using ⟨hnd, hn⟩

theorem factorLoop_stop {bound i n : ℕ} (h : i > bound) : factorLoop bound i n = ([], n) := by
  rw [factorLoop.eq_def]
  simp [h]

theorem factorLoop_go {bound i n : ℕ} (h : ¬i > bound) :
    factorLoop bound i n =
      (if (divideOut i n).1 > 0 then
          (i, (divideOut i n).1) :: (factorLoop bound (i + 1) (divideOut i n).2).1
        else (factorLoop bound (i + 1) (divideOut i n).2).1,
        (factorLoop bound (i + 1) (divideOut i n).2).2) := by
  rw [factorLoop.eq_def]
  simp [h]

theorem factorLoop_spec : ∀ bound i n : ℕ, 2 ≤ i → n ≠ 0 →
    (∀ q, 2 ≤ q → q < i → ¬q ∣ n) →
    ((factorLoop bound i n).1.map fun pe => pe.1 ^ pe.2).prod * (factorLoop bound i n).2
        = n ∧
      (∀ pe ∈ (factorLoop bound i n).1,
        Nat.Prime pe.1 ∧ 0 < pe.2 ∧ i ≤ pe.1 ∧ pe.1 ≤ bound) ∧
      (factorLoop bound i n).1.Pairwise (fun a b => a.1 < b.1) ∧
      (factorLoop bound i n).2 ≠ 0 ∧
      (∀ q, 2 ≤ q → q ≤ bound → ¬q ∣ (factorLoop bound i n).2) ∧
      (factorLoop bound i n).2 ∣ n := by
  intro bound i n
  induction i, n using factorLoop.induct bound with
  | case1 i n h =>
    intro _hi hn hinv
    rw [factorLoop_stop h]
    refine ⟨by simp, by simp, by simp, hn, ?_, dvd_refl n⟩
    intro q hq2 hqb
    exact hinv q hq2 (by omega)
  | case2 i n h d ih =>
    have hd : d = divideOut i n := rfl
    rw [hd] at ih
    clear hd
    intro hi hn hinv
    obtain ⟨hprod, hndvd, hne⟩ := divideOut_spec i n hi hn
    have hd2n : (divideOut i n).2 ∣ n := ⟨_, hprod.symm⟩
    have hinv2 : ∀ q, 2 ≤ q → q < i + 1 → ¬q ∣ (divideOut i n).2 := by
      intro q hq2 hqi hq
      rcases Nat.lt_or_ge q i with hlt | hge
      · exact hinv q hq2 hlt (hq.trans hd2n)
      · have : q = i := by omega
        subst this
        exact hndvd hq
    obtain ⟨ia, ib, ic, id, ie, if'⟩ := ih (by omega) hne hinv2
    rw [factorLoop_go h]
    by_cases he : (divideOut i n).1 > 0
    · have hidvd : i ∣ n := by
        rcases Nat.exists_eq_succ_of_ne_zero (by omega : (divideOut i n).1 ≠ 0)
          with ⟨k, hk⟩
        refine ⟨(divideOut i n).2 * i ^ k, ?_⟩
        calc n = (divideOut i n).2 * i ^ (divideOut i n).1 := hprod.symm
          _ = (divideOut i n).2 * i ^ (k + 1) := by rw [hk]
          _ = i * ((divideOut i n).2 * i ^ k) := by ring
      have hiprime : Nat.Prime i := by
        rcases Nat.lt_or_ge (Nat.minFac i) i with hlt | hge
        · exfalso
          have hm2 : 2 ≤ Nat.minFac i :=
            (Nat.minFac_prime (by omega : i ≠ 1)).two_le
          exact hinv _ hm2 hlt ((Nat.minFac_dvd i).trans hidvd)
        · have hle : Nat.minFac i ≤ i := Nat.minFac_le (by omega)
          have : Nat.minFac i = i := by omega
          exact Nat.prime_def_minFac.mpr ⟨hi, this⟩
      simp only [if_pos he]
      refine ⟨?_, ?_, ?_, id, ie, if'.trans hd2n⟩
      · simp only [List.map_cons, List.prod_cons]
        rw [Nat.mul_assoc, ia, Nat.mul_comm (i ^ (divideOut i n).1), hprod]
      · intro pe hpe
        rcases List.mem_cons.mp hpe with hhd | htl
        · subst hhd
          exact ⟨hiprime, he, le_refl i, by omega⟩
        · obtain ⟨p1, p2, p3, p4⟩ := ib pe htl
          exact ⟨p1, p2, by omega, p4⟩
      · rw [List.pairwise_cons]
        refine ⟨?_, ic⟩
        intro pe hpe
        obtain ⟨_, _, p3, _⟩ := ib pe hpe
        simp only
        omega
    · have hd2 : (divideOut i n).2 = n := by
        have h0 : (divideOut i n).1 = 0 := by omega
        rw [h0, pow_zero, Nat.mul_one] at hprod
        exact hprod
      simp only [if_neg he]
      rw [hd2] at ia ib ic id ie if' ⊢
      refine ⟨ia, ?_, ic, id, ie, if'⟩
      intro pe hpe
      obtain ⟨p1, p2, p3, p4⟩ := ib pe hpe
      exact ⟨p1, p2, by omega, p4⟩

theorem prime_factorize_spec (n : ℕ) (h0 : 0 < n) (hn : n < 2 ^ 128) :
    ∃ L : List (ℕ × ℕ), prime_factorize n = some L ∧
      (L.map fun pe => pe.1 ^ pe.2).prod = n ∧
      (∀ pe ∈ L, Nat.Prime pe.1 ∧ 0 < pe.2) ∧
      L.Pairwise (fun a b => a.1 < b.1) := by
  obtain ⟨ha, hb, hc, hd, he, hf⟩ :=
    factorLoop_spec (isqrt n) 2 n (le_refl 2) (by omega) (by omega)
  set r := factorLoop (isqrt n) 2 n with hr
  have hbase : prime_factorize n = some (if r.2 > 1 then r.1 ++ [(r.2, 1)] else r.1) := by
    unfold prime_factorize
    rw [if_neg (by omega)]
  by_cases hnf : r.2 > 1
  · have hnfprime : Nat.Prime r.2 := by
      by_contra hnp
      have hmf : Nat.minFac r.2 * Nat.minFac r.2 ≤ r.2 := by
        have := Nat.minFac_sq_le_self (by omega : 0 < r.2) hnp
        nlinarith [this, sq (Nat.minFac r.2)]
      have hm2 : 2 ≤ Nat.minFac r.2 := (Nat.minFac_prime (by omega : r.2 ≠ 1)).two_le
      have hrn : r.2 ≤ n := Nat.le_of_dvd h0 hf
      have hmsq : Nat.minFac r.2 * Nat.minFac r.2 ≤ n := le_trans hmf hrn
      have hmb : Nat.minFac r.2 ≤ isqrt n := le_isqrt hn hmsq
      exact he _ hm2 hmb ((Nat.minFac_dvd r.2).trans (dvd_refl r.2))
    have hgt : ∀ pe ∈ r.1, pe.1 < r.2 := by
      intro pe hpe
      obtain ⟨_, _, _, p4⟩ := hb pe hpe
      by_contra hge
      have h2r : 2 ≤ r.2 := by omega
      have hbnd : r.2 ≤ isqrt n := by omega
      exact he r.2 h2r hbnd (dvd_refl r.2)
    refine ⟨r.1 ++ [(r.2, 1)], by rw [hbase, if_pos hnf], ?_, ?_, ?_⟩
    · rw [List.map_append, List.prod_append]
      simp only [List.map_cons, List.map_nil, List.prod_cons, List.prod_nil, pow_one,
        Nat.mul_one]
      exact ha
    · intro pe hpe
      rcases List.mem_append.mp hpe with hl | hr2
      · obtain ⟨p1, p2, _, _⟩ := hb pe hl
        exact ⟨p1, p2⟩
      · rcases List.mem_singleton.mp hr2 with rfl
        exact ⟨hnfprime, by norm_num⟩
    · rw [List.pairwise_append]
      refine ⟨hc, by simp, ?_⟩
      intro a hal b hbl
      rcases List.mem_singleton.mp hbl with rfl
      exact hgt a hal
  · have hnf1 : r.2 = 1 := by omega
    refine ⟨r.1, by rw [hbase, if_neg hnf], ?_, ?_, hc⟩
    · rw [hnf1, Nat.mul_one] at ha
      exact ha
    · intro pe hpe
      obtain ⟨p1, p2, _, _⟩ := hb pe hpe
      exact ⟨p1, p2⟩

theorem factor_list_of_prime {p : ℕ} (hp : Nat.Prime p) :
    ∀ L : List (ℕ × ℕ), (L.map fun pe => pe.1 ^ pe.2).prod = p →
      (∀ pe ∈ L, Nat.Prime pe.1 ∧ 0 < pe.2) → L = [(p, 1)] := by
  intro L hprod hmem
  match L with
  | [] =>
    exfalso
    simp at hprod
    exact Nat.Prime.ne_one hp hprod.symm
  | [pe] =>
    simp only [List.map_cons, List.map_nil, List.prod_cons, List.prod_nil,
      Nat.mul_one] at hprod
    obtain ⟨hpe1, hpe2⟩ := hmem pe (by simp)
    have hdvd : pe.1 ∣ p := by
      rw [← hprod]
      exact dvd_pow_self pe.1 (by omega)
    have heq : pe.1 = p := (Nat.prime_dvd_prime_iff_eq hpe1 hp).mp hdvd
    have hexp : pe.2 = 1 := by
      by_contra hne
      have h2 : 2 ≤ pe.2 := by omega
      have hdd : pe.1 ^ 2 ∣ pe.1 ^ pe.2 := pow_dvd_pow pe.1 h2
      rw [hprod, heq] at hdd
      have hpp : p * p ∣ p := by
        have hsq : p ^ 2 = p * p := sq p
        rwa [hsq] at hdd
      have := Nat.le_of_dvd hp.pos hpp
      nlinarith [hp.two_le]
    have hpe : pe = (pe.1, pe.2) := rfl
    rw [hpe, heq, hexp]
  | pe1 :: pe2 :: rest =>
    exfalso
    simp only [List.map_cons, List.prod_cons] at hprod
    obtain ⟨h11, h12⟩ := hmem pe1 (by simp)
    obtain ⟨h21, h22⟩ := hmem pe2 (by simp)
    have hA : pe1.1 ^ pe1.2 ∣ p := ⟨_, hprod.symm⟩
    have h2a : 2 ≤ pe1.1 ^ pe1.2 := by
      calc 2 ≤ pe1.1 := h11.two_le
        _ = pe1.1 ^ 1 := (pow_one pe1.1).symm
        _ ≤ pe1.1 ^ pe1.2 := Nat.pow_le_pow_right h11.pos h12
    have h2b : 2 ≤ pe2.1 ^ pe2.2 := by
      calc 2 ≤ pe2.1 := h21.two_le
        _ = pe2.1 ^ 1 := (pow_one pe2.1).symm
        _ ≤ pe2.1 ^ pe2.2 := Nat.pow_le_pow_right h21.pos h22
    have hrest : 1 ≤ ((rest.map fun pe => pe.1 ^ pe.2)).prod := by
      refine Nat.one_le_iff_ne_zero.mpr (List.prod_ne_zero ?_)
      intro h0
      rcases List.mem_map.mp h0 with ⟨pe, hpe, hpow⟩
      obtain ⟨hq1, _⟩ := hmem pe (by simp [hpe])
      exact pow_ne_zero _ (Nat.Prime.ne_zero hq1) hpow
    rcases Nat.Prime.eq_one_or_self_of_dvd hp _ hA with h1 | hs
    · rw [h1] at h2a
      exact absurd h2a (by norm_num)
    · have hB : pe2.1 ^ pe2.2 * (rest.map fun pe => pe.1 ^ pe.2).prod = 1 := by
        have hp0 : 0 < p := hp.pos
        have hpB : p * (pe2.1 ^ pe2.2 * (rest.map fun pe => pe.1 ^ pe.2).prod) = p := by
          nth_rewrite 1 [← hs]
          exact hprod
        by_contra hne
        rcases Nat.lt_or_ge (pe2.1 ^ pe2.2 * (rest.map fun pe => pe.1 ^ pe.2).prod) 1
          with hlt | hge
        · have h0 : pe2.1 ^ pe2.2 * (rest.map fun pe => pe.1 ^ pe.2).prod = 0 := by omega
          rw [h0, Nat.mul_zero] at hpB
          omega
        · have h2 : 2 ≤ pe2.1 ^ pe2.2 * (rest.map fun pe => pe.1 ^ pe.2).prod := by omega
          nlinarith
      have h2B : 2 ≤ pe2.1 ^ pe2.2 * (rest.map fun pe => pe.1 ^ pe.2).prod := by
        calc 2 ≤ pe2.1 ^ pe2.2 := h2b
          _ = pe2.1 ^ pe2.2 * 1 := (Nat.mul_one _).symm
          _ ≤ pe2.1 ^ pe2.2 * (rest.map fun pe => pe.1 ^ pe.2).prod :=
            Nat.mul_le_mul_left _ hrest
      rw [hB] at h2B
      exact absurd h2B (by norm_num)

theorem prime_factorize_of_prime {p : ℕ} (hp : Nat.Prime p) (hlt : p < 2 ^ 128) :
    prime_factorize p = some [(p, 1)] := by
  obtain ⟨L, h1, h2, h3, _⟩ := prime_factorize_spec p hp.pos hlt
  rw [h1, factor_list_of_prime hp L h2 h3]

theorem euler_totient_prime {p : ℕ} (hp : Nat.Prime p) (hlt : p < 2 ^ 128) :
    euler_totient p = some (p - 1) := by
  unfold euler_totient
  rw [prime_factorize_of_prime hp hlt]
  simp [Nat.div_self hp.pos]

/-! ## Claim C8 -/

/-- C8: prime_factorize fails exactly on 0; for every positive n in the u128
range it returns an ordered list of (prime, positive exponent) pairs whose
prime-power product reconstitutes n, with the empty list exactly for n = 1. -/
theorem C8_prime_factorize_correct :
    prime_factorize 0 = none ∧
      ∀ n : ℕ, 0 < n → n < 2 ^ 128 →
        ∃ L : List (ℕ × ℕ), prime_factorize n = some L ∧
          (L.map fun pe => pe.1 ^ pe.2).prod = n ∧
          (∀ pe ∈ L, Nat.Prime pe.1 ∧ 0 < pe.2) ∧
          L.Pairwise (fun a b => a.1 < b.1) ∧
          (n = 1 → L = []) := by
  constructor
  · rfl
  · intro n h0 hn
    obtain ⟨L, h1, h2, h3, h4⟩ := prime_factorize_spec n h0 hn
    refine ⟨L, h1, h2, h3, h4, ?_⟩
    intro hone
    subst hone
    match L, h2, h3 with
    | [], _, _ => rfl
    | pe :: rest, h2, h3 =>
      exfalso
      simp only [List.map_cons, List.prod_cons] at h2
      obtain ⟨hq1, hq2⟩ := h3 pe (by simp)
      have hge : 2 ≤ pe.1 ^ pe.2 := by
        calc 2 ≤ pe.1 := hq1.two_le
          _ = pe.1 ^ 1 := (pow_one pe.1).symm
          _ ≤ pe.1 ^ pe.2 := Nat.pow_le_pow_right hq1.pos hq2
      have hdvd1 : pe.1 ^ pe.2 ∣ 1 := ⟨_, h2.symm⟩
      have := Nat.le_of_dvd (by norm_num) hdvd1
      omega

/-! ## Residue constructors and multiplication -/

theorem natAbs_toI128 {m : ℕ} (h0 : 0 < m) (hm : m ≤ 2 ^ 127) :
    (toI128 m).natAbs = m ∧ toI128 m ≠ 0 ∧ toI128 m ≠ -1 := by
  unfold toI128
  by_cases h : m < 2 ^ 127
  · rw [if_pos h]
    refine ⟨by simp, ?_, ?_⟩
    · exact_mod_cast Nat.pos_iff_ne_zero.mp h0
    · intro hc
      have : (0 : ℤ) ≤ (m : ℤ) := by positivity
      omega
  · have hm' : m = 2 ^ 127 := by omega
    subst hm'
    rw [if_neg h]
    norm_num

theorem from_unsigned_spec (n m : ℕ) (h0 : 0 < m) :
    from_unsigned_integer n m = some ⟨n % m, m⟩ ∧ n % m < m := by
  unfold from_unsigned_integer
  rw [if_neg (by omega)]
  exact ⟨rfl, Nat.mod_lt n h0⟩

theorem from_signed_spec (z : ℤ) (m : ℕ) (h0 : 0 < m) (hm : m ≤ 2 ^ 127) :
    from_signed_integer z m = some ⟨(z % (m : ℤ)).toNat, m⟩ ∧
      (z % (m : ℤ)).toNat < m ∧ ((z % (m : ℤ)).toNat : ℤ) = z % (m : ℤ) := by
  obtain ⟨habs, hne0, hne1⟩ := natAbs_toI128 h0 hm
  have hmz : (m : ℤ) ≠ 0 := by exact_mod_cast Nat.pos_iff_ne_zero.mp h0
  have hnonneg : 0 ≤ z % (m : ℤ) := Int.emod_nonneg z hmz
  have hlt : z % (m : ℤ) < m := Int.emod_lt_of_pos z (by exact_mod_cast h0)
  refine ⟨?_, ?_, Int.toNat_of_nonneg hnonneg⟩
  · unfold from_signed_integer
    simp only [if_neg hne0]
    rw [if_neg (by intro hc; exact hne1 hc.1)]
    rw [habs]
  · have h4 : (z % (m : ℤ)).toNat < ((m : ℤ)).toNat :=
      (Int.toNat_lt_toNat (by exact_mod_cast h0)).mpr hlt
    simpa using h4

theorem times_eval (a b : Residue) (ha : a.valid) (hb : b.valid)
    (hm : a.modulus = b.modulus) :
    times a b = some ⟨a.value * b.value % u128Size % a.modulus, a.modulus⟩ ∧
      a.value * b.value % u128Size % a.modulus < a.modulus := by
  have h0 : 0 < a.modulus := lt_of_le_of_lt (Nat.zero_le _) ha
  constructor
  · unfold times
    rw [if_pos ⟨ha, hb, hm⟩]
    exact (from_unsigned_spec _ _ h0).1
  · exact Nat.mod_lt _ h0

theorem times_exact (a b : Residue) (ha : a.valid) (hb : b.valid)
    (hm : a.modulus = b.modulus) (hw : (a.modulus - 1) * (a.modulus - 1) < u128Size) :
    times a b = some ⟨a.value * b.value % a.modulus, a.modulus⟩ := by
  have hlt : a.value * b.value < u128Size := by
    have h1 : a.value ≤ a.modulus - 1 := by
      have := ha
      unfold Residue.valid at this
      omega
    have h2 : b.value ≤ a.modulus - 1 := by
      have := hb
      unfold Residue.valid at this
      omega
    calc a.value * b.value ≤ (a.modulus - 1) * (a.modulus - 1) := Nat.mul_le_mul h1 h2
      _ < u128Size := hw
  have := (times_eval a b ha hb hm).1
  rwa [Nat.mod_eq_of_lt hlt] at this

/-! ## Claims C4, C6, C10 -/

/-- C4: from_unsigned_integer reduces any u128 into the range below the
modulus with Euclidean semantics for every positive modulus; the same holds
for from_signed_integer on signed inputs provided the modulus fits in i128
(at most 2^127).  (The original claim had no bound on the modulus for the
signed constructor: see the counterexample.) -/
theorem C4_construction_euclidean (n m : ℕ) (h0 : 0 < m) :
    (from_unsigned_integer n m = some ⟨n % m, m⟩ ∧ n % m < m) ∧
      ∀ z : ℤ, m ≤ 2 ^ 127 →
        ∃ v : ℕ, from_signed_integer z m = some ⟨v, m⟩ ∧ v < m ∧
          (v : ℤ) = z % (m : ℤ) := by
  refine ⟨from_unsigned_spec n m h0, ?_⟩
  intro z hm
  obtain ⟨h1, h2, h3⟩ := from_signed_spec z m h0 hm
  exact ⟨(z % (m : ℤ)).toNat, h1, h2, h3⟩

/-- C4 witness: reducing 7 and -2 modulo 5. -/
theorem C4_witness :
    (0 : ℕ) < 5 ∧
      ((from_unsigned_integer 7 5 = some ⟨7 % 5, 5⟩ ∧ 7 % 5 < 5) ∧
        ∀ z : ℤ, (5 : ℕ) ≤ 2 ^ 127 →
          ∃ v : ℕ, from_signed_integer z 5 = some ⟨v, 5⟩ ∧ v < 5 ∧
            (v : ℤ) = z % ((5 : ℕ) : ℤ)) :=
  ⟨by norm_num, C4_construction_euclidean 7 5 (by norm_num)⟩

set_option maxRecDepth 8000 in
/-- C4 counterexample: for the modulus 2^127 + 1 (valid u128, above the i128
range) the source casts the modulus to the negative i128 value -(2^127 - 1),
so from_signed_integer(-1) returns 2^127 - 2, which is not -1 reduced modulo
2^127 + 1 (that would be 2^127). -/
theorem C4_counterexample :
    from_signed_integer (-1) (2 ^ 127 + 1) = some ⟨2 ^ 127 - 2, 2 ^ 127 + 1⟩ ∧
      (-1 : ℤ) % (((2 ^ 127 + 1 : ℕ) : ℤ)) = 2 ^ 127 ∧
      ((2 ^ 127 - 2 : ℕ) : ℤ) ≠ (2 ^ 127 : ℤ) := by
  refine ⟨by decide, by decide, by decide⟩

/-- C6: scalar_times does not pre-reduce the scalar; it hands the raw i128
product scalar * value to from_signed_integer.  When that product stays in
the i128 range (and the modulus is at most 2^127) the result equals
scalar * value modulo the modulus; an overflowing product wraps and the
result can be wrong (see the counterexample). -/
theorem C6_scalar_times_exact (a : Residue) (c : ℤ) (ha : a.valid)
    (hm : a.modulus ≤ 2 ^ 127) (hlo : -(2 ^ 127) ≤ c * a.value)
    (hhi : c * a.value < 2 ^ 127) :
    ∃ r : Residue, scalar_times a c = some r ∧ r.modulus = a.modulus ∧
      (r.value : ℤ) = c * a.value % (a.modulus : ℤ) ∧ r.valid := by
  have h0 : 0 < a.modulus := lt_of_le_of_lt (Nat.zero_le _) ha
  have hvlt : a.value < 2 ^ 127 := by
    have := ha
    unfold Residue.valid at this
    omega
  have hcast : toI128 a.value = (a.value : ℤ) := toI128_of_lt hvlt
  obtain ⟨h1, h2, h3⟩ := from_signed_spec (c * a.value) a.modulus h0 hm
  refine ⟨⟨((c * a.value) % (a.modulus : ℤ)).toNat, a.modulus⟩, ?_, rfl, h3, h2⟩
  unfold scalar_times
  rw [if_pos ha, hcast, wrapI128_of_bounds hlo hhi]
  exact h1

/-- C6 witness: scalar 4 acting on 2 modulo 7. -/
theorem C6_witness :
    ∃ r : Residue, scalar_times ⟨2, 7⟩ 4 = some r ∧ r.modulus = 7 ∧
      (r.value : ℤ) = 4 * ((2 : ℕ) : ℤ) % ((7 : ℕ) : ℤ) ∧ r.valid :=
  C6_scalar_times_exact ⟨2, 7⟩ 4 (by decide) (by norm_num) (by norm_num) (by norm_num)

set_option maxRecDepth 8000 in
/-- C6 counterexample: with modulus 3, value 2 and scalar 2^126 the i128
product 2^127 overflows and wraps to -(2^127), so the source returns the
residue 1 although 2^126 * 2 is congruent to 2 modulo 3: the claimed
reduce-the-scalar-first behaviour would have produced 2. -/
theorem C6_counterexample :
    scalar_times ⟨2, 3⟩ (2 ^ 126) = some ⟨1, 3⟩ ∧
      (2 ^ 126 * ((2 : ℕ) : ℤ)) % ((3 : ℕ) : ℤ) = 2 := by
  refine ⟨by decide, by decide⟩

set_option maxRecDepth 8000 in
/-- C10: times multiplies the two values as u128, so the result is the exact
modular product whenever (modulus - 1)^2 fits in 128 bits, in particular for
every modulus up to 2^64; past that boundary the product wraps around 2^128,
and a concrete wrapped instance (modulus 2^64 + 1, both values 2^64) yields
0 where the exact modular product is 1. -/
theorem C10_times_overflow_boundary :
    (∀ a b : Residue, a.valid → b.valid → a.modulus = b.modulus →
        (a.modulus - 1) * (a.modulus - 1) < 2 ^ 128 →
        times a b = some ⟨a.value * b.value % a.modulus, a.modulus⟩) ∧
      (∀ m : ℕ, m ≤ 2 ^ 64 → (m - 1) * (m - 1) < 2 ^ 128) ∧
      (times ⟨2 ^ 64, 2 ^ 64 + 1⟩ ⟨2 ^ 64, 2 ^ 64 + 1⟩ = some ⟨0, 2 ^ 64 + 1⟩ ∧
        2 ^ 64 * 2 ^ 64 % (2 ^ 64 + 1) = 1) := by
  refine ⟨?_, ?_, by decide, by decide⟩
  · intro a b ha hb hm hw
    exact times_exact a b ha hb hm hw
  · intro m hm
    have h1 : m - 1 ≤ 2 ^ 64 - 1 := by omega
    calc (m - 1) * (m - 1) ≤ (2 ^ 64 - 1) * (2 ^ 64 - 1) := Nat.mul_le_mul h1 h1
      _ < 2 ^ 128 := by norm_num

/-- C10 witness: an exact product within the boundary. -/
theorem C10_witness :
    times ⟨2, 7⟩ ⟨5, 7⟩ = some ⟨2 * 5 % 7, 7⟩ :=
  C10_times_overflow_boundary.1 ⟨2, 7⟩ ⟨5, 7⟩ (by decide) (by decide) rfl (by norm_num)

/-! ## Modular inverse -/

theorem toI128_natAbs_le (m : ℕ) : (toI128 m).natAbs ≤ m := by
  unfold toI128
  by_cases h : m < 2 ^ 127
  · rw [if_pos h]
    exact le_of_eq (Int.natAbs_ofNat m)
  · rw [if_neg h]
    rcases Nat.lt_or_ge m (2 ^ 128) with h2 | h2
    · have h4 : ((m : ℤ) - 2 ^ 128).natAbs = (2 ^ 128 - m : ℕ) := by
        have hx : ((m : ℤ) - 2 ^ 128) = -(((2 ^ 128 - m : ℕ) : ℤ)) := by
          push_cast
          omega
        rw [hx, Int.natAbs_neg]
        exact Int.natAbs_ofNat _
      rw [h4]
      omega
    · have h4 : ((m : ℤ) - 2 ^ 128).natAbs = (m - 2 ^ 128 : ℕ) := by
        have hx : ((m : ℤ) - 2 ^ 128) = ((m - 2 ^ 128 : ℕ) : ℤ) := by
          push_cast [h2]
          omega
        rw [hx]
        exact Int.natAbs_ofNat _
      rw [h4]
      omega

theorem from_signed_valid {z : ℤ} {m : ℕ} {c : Residue}
    (h : from_signed_integer z m = some c) : c.valid ∧ c.modulus = m := by
  unfold from_signed_integer at h
  by_cases h0 : toI128 m = 0
  · simp [h0] at h
  · rw [if_neg h0] at h
    by_cases h1 : toI128 m = -1 ∧ z = i128Min
    · rw [if_pos h1] at h
      exact absurd h (by simp)
    · rw [if_neg h1] at h
      have hc : c = ⟨(z % ((toI128 m).natAbs : ℤ)).toNat, m⟩ := by
        exact (Option.some.injEq _ _ ▸ h).symm
      subst hc
      have habs : 0 < (toI128 m).natAbs := Int.natAbs_pos.mpr h0
      have habsz : ((toI128 m).natAbs : ℤ) ≠ 0 := by exact_mod_cast Nat.pos_iff_ne_zero.mp habs
      constructor
      · show (z % ((toI128 m).natAbs : ℤ)).toNat < m
        have hlt : z % ((toI128 m).natAbs : ℤ) < (toI128 m).natAbs :=
          Int.emod_lt_of_pos z (by exact_mod_cast habs)
        have h2 : (z % ((toI128 m).natAbs : ℤ)).toNat < (toI128 m).natAbs := by
          have h5 := (Int.toNat_lt_toNat (by exact_mod_cast habs)).mpr hlt
          rwa [Int.toNat_natCast] at h5
        exact lt_of_lt_of_le h2 (toI128_natAbs_le m)
      · rfl

theorem inv_spec (a : Residue) (ha : a.valid) (hm : a.modulus < 2 ^ 127) :
    (Nat.gcd a.value a.modulus = 1 →
      ∃ c : Residue, inv a = some c ∧ c.modulus = a.modulus ∧ c.valid ∧
        (c.value * a.value) % a.modulus = 1 % a.modulus) ∧
      (Nat.gcd a.value a.modulus ≠ 1 → inv a = none) := by
  have h0 : 0 < a.modulus := lt_of_le_of_lt (Nat.zero_le _) ha
  have hx : a.value < 2 ^ 127 := lt_trans ha hm
  obtain ⟨u, v, c, hsome, hbez⟩ :=
    gcd_with_coefficients_gu a.value a.modulus hx hm (by omega)
  constructor
  · intro hgcd
    obtain ⟨hfs, hvlt, hveq⟩ := from_signed_spec u a.modulus h0 (le_of_lt hm)
    refine ⟨⟨(u % ((a.modulus : ℕ) : ℤ)).toNat, a.modulus⟩, ?_, rfl, hvlt, ?_⟩
    · unfold inv
      rw [if_pos ha, hsome]
      simp only [hgcd, if_pos]
      exact hfs
    · have hz : ((((u % ((a.modulus : ℕ) : ℤ)).toNat * a.value) % a.modulus : ℕ) : ℤ)
          = ((1 % a.modulus : ℕ) : ℤ) := by
        push_cast
        rw [hveq]
        have hmod : (u % (a.modulus : ℤ)) * (a.value : ℤ) % (a.modulus : ℤ)
            = u * (a.value : ℤ) % (a.modulus : ℤ) := by
          rw [Int.mul_emod, Int.emod_emod_of_dvd u (dvd_refl _), ← Int.mul_emod]
        rw [hmod]
        have hone : u * (a.value : ℤ) % (a.modulus : ℤ) = 1 % (a.modulus : ℤ) := by
          have hbez1 : u * (a.value : ℤ) = 1 + -c * (a.modulus : ℤ) := by
            rw [hgcd] at hbez
            push_cast at hbez
            linarith
          rw [hbez1, Int.add_mul_emod_self]
        rw [hone]
      exact_mod_cast hz
  · intro hgcd
    unfold inv
    rw [if_pos ha, hsome]
    simp only [hgcd, if_neg, if_false]

theorem mul_self_pred_lt_u128 {m : ℕ} (hm : m ≤ 2 ^ 64) :
    (m - 1) * (m - 1) < u128Size := by
  have h1 : m - 1 ≤ 2 ^ 64 - 1 := by omega
  calc (m - 1) * (m - 1) ≤ (2 ^ 64 - 1) * (2 ^ 64 - 1) := Nat.mul_le_mul h1 h1
    _ < u128Size := by unfold u128Size; norm_num

/-! ## Claim C2 -/

/-- C2: for every valid residue whose modulus is small enough that neither
the i128 casts inside extended Euclid nor the u128 product inside times can
wrap (modulus at most 2^64), inv succeeds exactly when the value is coprime
to the modulus, a successful inverse multiplies with the original residue to
the residue one, and a non-unit makes inv fail fast.  (The original claim
had no modulus bound: see the counterexample, where the casts wrap.) -/
theorem C2_inv_correct (a : Residue) (ha : a.valid) (hm : a.modulus ≤ 2 ^ 64) :
    ((inv a).isSome ↔ Nat.gcd a.value a.modulus = 1) ∧
      (∀ c : Residue, inv a = some c →
        times a c = some ⟨1 % a.modulus, a.modulus⟩) ∧
      (Nat.gcd a.value a.modulus ≠ 1 → inv a = none) := by
  have hm127 : a.modulus < 2 ^ 127 := lt_of_le_of_lt hm (by norm_num)
  obtain ⟨hpos, hneg⟩ := inv_spec a ha hm127
  refine ⟨⟨?_, ?_⟩, ?_, hneg⟩
  · intro hs
    by_contra hg
    rw [hneg hg] at hs
    simp at hs
  · intro hg
    obtain ⟨c, hc, _⟩ := hpos hg
    rw [hc]
    simp
  · intro c hc
    by_cases hg : Nat.gcd a.value a.modulus = 1
    · obtain ⟨c', hc', hcm, hcv, hmul⟩ := hpos hg
      rw [hc] at hc'
      have hcc : c = c' := Option.some_injective _ hc'
      subst hcc
      have ht := times_exact a c ha hcv hcm.symm (mul_self_pred_lt_u128 hm)
      rw [ht]
      have hval : a.value * c.value % a.modulus = 1 % a.modulus := by
        rw [Nat.mul_comm]
        exact hmul
      rw [hval]
    · rw [hneg hg] at hc
      exact absurd hc (by simp)

/-- C2 witness: the inverse of 3 modulo 7. -/
theorem C2_witness :
    ((inv ⟨3, 7⟩).isSome ↔ Nat.gcd 3 7 = 1) ∧
      (∀ c : Residue, inv ⟨3, 7⟩ = some c →
        times ⟨3, 7⟩ c = some ⟨1 % 7, 7⟩) ∧
      (Nat.gcd 3 7 ≠ 1 → inv ⟨3, 7⟩ = none) :=
  C2_inv_correct ⟨3, 7⟩ (by decide) (by norm_num)

theorem egcdLoop_run_c2 : egcdLoop 1 3 0 (-5) = (1, 2) := by
  rw [egcdLoop_next _ _ _ _ (by decide)]
  have e1 : (1 : ℤ) - Int.tdiv 3 (-5) * 0 = 1 := by decide
  have e2 : Int.tmod 3 (-5) = 3 := by decide
  rw [e1, e2]
  rw [egcdLoop_next _ _ _ _ (by decide)]
  have e3 : (0 : ℤ) - Int.tdiv (-5) 3 * 1 = 1 := by decide
  have e4 : Int.tmod (-5) 3 = -2 := by decide
  rw [e3, e4]
  rw [egcdLoop_next _ _ _ _ (by decide)]
  have e5 : (1 : ℤ) - Int.tdiv 3 (-2) * 1 = 2 := by decide
  have e6 : Int.tmod 3 (-2) = 1 := by decide
  rw [e5, e6]
  rw [egcdLoop_next _ _ _ _ (by decide)]
  have e7 : (1 : ℤ) - Int.tdiv (-2) 1 * 2 = 5 := by decide
  have e8 : Int.tmod (-2) 1 = 0 := by decide
  rw [e7, e8, egcdLoop_stop]

set_option maxRecDepth 8000 in
theorem gcdc_run_c2 : gcd_with_coefficients 3 (2 ^ 128 - 5) = some (1, 2, 1) := by
  have ht3 : toI128 3 = 3 := by decide
  have ht5 : toI128 (2 ^ 128 - 5) = -5 := by decide
  unfold gcd_with_coefficients
  rw [if_neg (by norm_num)]
  simp only [ht3, ht5, egcdLoop_run_c2]
  decide

set_option maxRecDepth 8000 in
theorem inv_run_c2 : inv ⟨3, 2 ^ 128 - 5⟩ = some ⟨2, 2 ^ 128 - 5⟩ := by
  unfold inv
  rw [if_pos (by decide), gcdc_run_c2]
  decide

set_option maxRecDepth 8000 in
/-- C2 counterexample: the residue 3 modulo 2^128 - 5 is a unit (the
modulus is coprime to 3), and inv succeeds, but because the source casts the
modulus to i128 it computes with -5 instead and returns the residue 2; the
product 3 * 2 = 6 is not the residue 1, so a.times(a.inv()) is wrong rather
than the claimed identity. -/
theorem C2_counterexample :
    Nat.gcd 3 (2 ^ 128 - 5) = 1 ∧
      inv ⟨3, 2 ^ 128 - 5⟩ = some ⟨2, 2 ^ 128 - 5⟩ ∧
      times ⟨3, 2 ^ 128 - 5⟩ ⟨2, 2 ^ 128 - 5⟩ = some ⟨6, 2 ^ 128 - 5⟩ ∧
      (6 : ℕ) ≠ 1 % (2 ^ 128 - 5) := by
  refine ⟨by decide, inv_run_c2, by decide, by decide⟩

/-! ## Exponentiation -/

theorem powLoop_zero (a b : Residue) : powLoop a b 0 = some b := by
  rw [powLoop.eq_def]
  simp

theorem powLoop_step (a b : Residue) (e : ℕ) (he : e ≠ 0) (bb aa : Residue)
    (hb' : (if e % 2 = 1 then times b a else some b) = some bb)
    (ha' : times a a = some aa) :
    powLoop a b e = powLoop aa bb (e / 2) := by
  rw [powLoop.eq_def]
  simp only [he, dite_false, dif_neg, not_false_iff]
  rw [hb', ha']

theorem powLoop_isSome (m : ℕ) (hm : 0 < m) :
    ∀ e : ℕ, ∀ a b : Residue, a.modulus = m → b.modulus = m → a.valid → b.valid →
      ∃ c : Residue, powLoop a b e = some c ∧ c.modulus = m ∧ c.valid := by
  intro e
  induction e using Nat.strong_induction_on with
  | _ e ih =>
    intro a b ham hbm hav hbv
    by_cases he : e = 0
    · subst he
      rw [powLoop_zero]
      exact ⟨b, rfl, hbm, hbv⟩
    · obtain ⟨htaa, hvaa⟩ := times_eval a a hav hav rfl
      obtain ⟨htba, hvba⟩ := times_eval b a hbv hav (hbm.trans ham.symm)
      by_cases hodd : e % 2 = 1
      · rw [powLoop_step a b e he _ _ (by rw [if_pos hodd]; exact htba) htaa]
        refine ih (e / 2) (by omega) _ _ ham ?_ ?_ ?_
        · exact hbm
        · show a.value * a.value % u128Size % a.modulus < a.modulus
          exact hvaa
        · show b.value * a.value % u128Size % b.modulus < b.modulus
          exact hvba
      · rw [powLoop_step a b e he _ _ (by rw [if_neg hodd]) htaa]
        refine ih (e / 2) (by omega) _ _ ham hbm ?_ hbv
        show a.value * a.value % u128Size % a.modulus < a.modulus
        exact hvaa

theorem powLoop_val (m : ℕ) (hm : 0 < m) (hw : (m - 1) * (m - 1) < u128Size) :
    ∀ e : ℕ, ∀ a b : Residue, a.modulus = m → b.modulus = m → a.valid → b.valid →
      powLoop a b e = some ⟨b.value * a.value ^ e % m, m⟩ := by
  intro e
  induction e using Nat.strong_induction_on with
  | _ e ih =>
    intro a b ham hbm hav hbv
    by_cases he : e = 0
    · subst he
      rw [powLoop_zero, pow_zero, Nat.mul_one,
        Nat.mod_eq_of_lt (show b.value < m from hbm ▸ hbv), ← hbm]
    · have htaa : times a a = some ⟨a.value * a.value % m, m⟩ := by
        have h := times_exact a a hav hav rfl (by rw [ham]; exact hw)
        rw [ham] at h
        exact h
      have htba : times b a = some ⟨b.value * a.value % m, m⟩ := by
        have h := times_exact b a hbv hav (hbm.trans ham.symm) (by rw [hbm]; exact hw)
        rw [hbm] at h
        exact h
      have hvaa : (⟨a.value * a.value % m, m⟩ : Residue).valid := Nat.mod_lt _ hm
      have hvba : (⟨b.value * a.value % m, m⟩ : Residue).valid := Nat.mod_lt _ hm
      by_cases hodd : e % 2 = 1
      · rw [powLoop_step a b e he _ _ (by rw [if_pos hodd]; exact htba) htaa]
        rw [ih (e / 2) (by omega) _ _ rfl rfl hvaa hvba]
        have harith : (b.value * a.value % m) * ((a.value * a.value % m) ^ (e / 2)) % m
            = b.value * a.value ^ e % m := by
          conv_rhs => rw [show e = 2 * (e / 2) + 1 by omega]
          have h1 : (b.value * a.value % m) * ((a.value * a.value % m) ^ (e / 2))
              ≡ b.value * a.value * (a.value * a.value) ^ (e / 2) [MOD m] :=
            Nat.ModEq.mul (Nat.mod_modEq _ _) (Nat.ModEq.pow _ (Nat.mod_modEq _ _))
          have h2 : b.value * a.value * (a.value * a.value) ^ (e / 2)
              = b.value * a.value ^ (2 * (e / 2) + 1) := by
            rw [pow_succ, pow_mul, pow_two]
            ring
          rw [h2] at h1
          exact h1
        rw [harith]
      · rw [powLoop_step a b e he _ _ (by rw [if_neg hodd]) htaa]
        rw [ih (e / 2) (by omega) _ _ rfl hbm hvaa hbv]
        have harith : b.value * ((a.value * a.value % m) ^ (e / 2)) % m
            = b.value * a.value ^ e % m := by
          conv_rhs => rw [show e = 2 * (e / 2) by omega]
          have h1 : b.value * ((a.value * a.value % m) ^ (e / 2))
              ≡ b.value * (a.value * a.value) ^ (e / 2) [MOD m] :=
            Nat.ModEq.mul (Nat.ModEq.refl _) (Nat.ModEq.pow _ (Nat.mod_modEq _ _))
          have h2 : b.value * (a.value * a.value) ^ (e / 2)
              = b.value * a.value ^ (2 * (e / 2)) := by
            rw [pow_mul, pow_two]
          rw [h2] at h1
          exact h1
        rw [harith]

theorem pow_nonneg_eq (r : Residue) (hv : r.valid) (e : ℤ) (he : 0 ≤ e) :
    pow r e = powLoop r ⟨1 % r.modulus, r.modulus⟩ e.toNat := by
  have h0 : 0 < r.modulus := lt_of_le_of_lt (Nat.zero_le _) hv
  rw [pow.eq_def, if_pos hv, if_neg (by omega : ¬e < 0),
    (from_unsigned_spec 1 r.modulus h0).1]

theorem pow_neg_eq (r : Residue) (hv : r.valid) (e : ℤ) (he : e < 0) (hne : e ≠ i128Min) :
    pow r e = (inv r).bind fun b => pow b (-e) := by
  rw [pow.eq_def, if_pos hv, if_pos he, if_neg hne]
  cases hinv : inv r with
  | none => rfl
  | some b => rfl

theorem pow_val (m : ℕ) (hm : 0 < m) (hw : (m - 1) * (m - 1) < u128Size) (r : Residue)
    (hmr : r.modulus = m) (hv : r.valid) (e : ℤ) (he : 0 ≤ e) :
    pow r e = some ⟨r.value ^ e.toNat % m, m⟩ := by
  rw [pow_nonneg_eq r hv e he, hmr]
  rw [powLoop_val m hm hw e.toNat r ⟨1 % m, m⟩ hmr rfl hv (Nat.mod_lt 1 hm)]
  have harith : 1 % m * r.value ^ e.toNat % m = r.value ^ e.toNat % m := by
    have h1 : 1 % m * r.value ^ e.toNat ≡ 1 * r.value ^ e.toNat [MOD m] :=
      Nat.ModEq.mul (Nat.mod_modEq 1 m) (Nat.ModEq.refl _)
    rw [Nat.one_mul] at h1
    exact h1
  rw [harith]

theorem inv_some_valid {a c : Residue} (h : inv a = some c) :
    c.valid ∧ c.modulus = a.modulus := by
  unfold inv at h
  split at h
  · split at h
    · exact absurd h (by simp)
    · split at h
      · exact from_signed_valid h
      · exact absurd h (by simp)
  · exact absurd h (by simp)

/-! ## Claim C3 -/

/-- C3: on a valid residue, pow(0) is the residue one, pow(-1) equals inv
(both as computations: either both succeed with the same result or both
panic on a non-unit), and for every negative exponent above the smallest
i128, pow(e) is inv() followed by the nonnegative square-and-multiply loop on
-e, i.e. the recursion performs exactly one inversion.  (The original claim
extended this to ALL representable signed exponents; the smallest i128 is a
representable negative exponent for which negating overflows, so the
recursion does not reach the loop: see the counterexample.) -/
theorem C3_pow_negative_exponent (a : Residue) (ha : a.valid)
    (hrange : a.modulus < 2 ^ 128) :
    pow a 0 = from_unsigned_integer 1 a.modulus ∧
      pow a (-1) = inv a ∧
      ∀ e : ℤ, i128Min < e → e < 0 →
        pow a e = ((inv a).bind fun b => pow b (-e)) ∧
        ∀ b : Residue, inv a = some b →
          pow b (-e) = (from_unsigned_integer 1 b.modulus).bind
            fun one => powLoop b one (-e).toNat := by
  have h0 : 0 < a.modulus := lt_of_le_of_lt (Nat.zero_le _) ha
  have hpow1 : ∀ b : Residue, b.valid → b.modulus = a.modulus → pow b 1 = some b := by
    intro b hbv hbm
    rw [pow_nonneg_eq b hbv 1 (by norm_num)]
    have h1 : (1 : ℤ).toNat = 1 := rfl
    rw [h1]
    have h0b : 0 < b.modulus := by omega
    rw [powLoop_step b ⟨1 % b.modulus, b.modulus⟩ 1 (by norm_num) b
      ⟨b.value * b.value % u128Size % b.modulus, b.modulus⟩ ?_ ?_]
    · rw [show (1 : ℕ) / 2 = 0 by norm_num, powLoop_zero]
    · rw [if_pos (by norm_num)]
      have ht := (times_eval ⟨1 % b.modulus, b.modulus⟩ b (Nat.mod_lt 1 h0b) hbv rfl).1
      rw [ht]
      have hval : (1 % b.modulus) * b.value % u128Size % b.modulus = b.value := by
        have hlt : (1 % b.modulus) * b.value < u128Size := by
          have hb1 : 1 % b.modulus ≤ 1 := Nat.mod_le 1 _
          have h2 : (1 % b.modulus) * b.value ≤ 1 * b.value := Nat.mul_le_mul_right _ hb1
          have h3 : (1 % b.modulus) * b.value ≤ b.value := by
            rwa [Nat.one_mul] at h2
          have hbv' : b.value < b.modulus := hbv
          have hbm' : b.modulus < 2 ^ 128 := by omega
          unfold u128Size
          omega
        rw [Nat.mod_eq_of_lt hlt]
        have h1m : 1 % b.modulus * b.value % b.modulus = b.value % b.modulus := by
          have hc : 1 % b.modulus * b.value ≡ 1 * b.value [MOD b.modulus] :=
            Nat.ModEq.mul (Nat.mod_modEq 1 _) (Nat.ModEq.refl _)
          rw [Nat.one_mul] at hc
          exact hc
        rw [h1m, Nat.mod_eq_of_lt hbv]
      rw [hval]
    · exact (times_eval b b hbv hbv rfl).1
  refine ⟨?_, ?_, ?_⟩
  · rw [pow_nonneg_eq a ha 0 (le_refl 0), (from_unsigned_spec 1 a.modulus h0).1]
    have h00 : (0 : ℤ).toNat = 0 := rfl
    rw [h00, powLoop_zero]
  · rw [pow_neg_eq a ha (-1) (by norm_num) (by norm_num [i128Min])]
    cases hinv : inv a with
    | none => rfl
    | some b =>
      obtain ⟨hbv, hbm⟩ := inv_some_valid hinv
      show pow b 1 = some b
      exact hpow1 b hbv hbm
  · intro e hmin hneg
    refine ⟨pow_neg_eq a ha e hneg (by omega), ?_⟩
    intro b hb
    obtain ⟨hbv, hbm⟩ := inv_some_valid hb
    have h0b : 0 < b.modulus := by omega
    rw [pow_nonneg_eq b hbv (-e) (by omega), (from_unsigned_spec 1 b.modulus h0b).1]
    rfl

set_option maxRecDepth 8000 in
/-- C3 witness: the residue 2 modulo 5 at exponent -3. -/
theorem C3_witness :
    (⟨2, 5⟩ : Residue).valid ∧ (⟨2, 5⟩ : Residue).modulus < 2 ^ 128 ∧
      i128Min < (-3 : ℤ) ∧ (-3 : ℤ) < 0 ∧
      (pow ⟨2, 5⟩ 0 = from_unsigned_integer 1 5 ∧
        pow ⟨2, 5⟩ (-1) = inv ⟨2, 5⟩ ∧
        ∀ e : ℤ, i128Min < e → e < 0 →
          pow ⟨2, 5⟩ e = ((inv ⟨2, 5⟩).bind fun b => pow b (-e)) ∧
          ∀ b : Residue, inv ⟨2, 5⟩ = some b →
            pow b (-e) = (from_unsigned_integer 1 b.modulus).bind
              fun one => powLoop b one (-e).toNat) :=
  ⟨by decide, by norm_num, by norm_num [i128Min], by norm_num,
    C3_pow_negative_exponent ⟨2, 5⟩ (by decide) (by norm_num)⟩

set_option maxRecDepth 8000 in
theorem egcdLoop_run_c3 : egcdLoop 1 2 0 5 = (1, -2) := by
  rw [egcdLoop_next _ _ _ _ (by decide)]
  have e1 : (1 : ℤ) - Int.tdiv 2 5 * 0 = 1 := by decide
  have e2 : Int.tmod 2 5 = 2 := by decide
  rw [e1, e2]
  rw [egcdLoop_next _ _ _ _ (by decide)]
  have e3 : (0 : ℤ) - Int.tdiv 5 2 * 1 = -2 := by decide
  have e4 : Int.tmod 5 2 = 1 := by decide
  rw [e3, e4]
  rw [egcdLoop_next _ _ _ _ (by decide)]
  have e5 : (1 : ℤ) - Int.tdiv 2 1 * (-2) = 5 := by decide
  have e6 : Int.tmod 2 1 = 0 := by decide
  rw [e5, e6, egcdLoop_stop]

set_option maxRecDepth 8000 in
theorem inv_run_c3 : inv ⟨2, 5⟩ = some ⟨3, 5⟩ := by
  have hg : gcd_with_coefficients 2 5 = some (1, -2, 1) := by
    have ht2 : toI128 2 = 2 := by decide
    have ht5 : toI128 5 = 5 := by decide
    unfold gcd_with_coefficients
    rw [if_neg (by norm_num)]
    simp only [ht2, ht5, egcdLoop_run_c3]
    decide
  unfold inv
  rw [if_pos (by decide), hg]
  decide

set_option maxRecDepth 8000 in
/-- C3 counterexample: the exponent -(2^127) is a representable i128 value,
but negating it overflows, so pow panics (debug) or recurses forever
(release) instead of computing inv().pow(2^127); the latter computation
succeeds (the base 2 is a unit modulo 5), so the two sides differ. -/
theorem C3_counterexample :
    pow ⟨2, 5⟩ i128Min = none ∧
      ∃ c : Residue, ((inv ⟨2, 5⟩).bind fun b => pow b (-i128Min)) = some c := by
  constructor
  · rw [pow.eq_def, if_pos (by decide), if_pos (by norm_num [i128Min]), if_pos rfl]
  · rw [inv_run_c3, Option.some_bind]
    rw [pow_nonneg_eq ⟨3, 5⟩ (by decide) (-i128Min) (by norm_num [i128Min])]
    obtain ⟨c, hc, _, _⟩ := powLoop_isSome 5 (by norm_num) ((-i128Min).toNat)
      ⟨3, 5⟩ ⟨1 % (5 : ℕ), (5 : ℕ)⟩ rfl rfl (by decide) (by decide)
    exact ⟨c, hc⟩

/-- C8 witness: factoring 12. -/
theorem C8_witness :
    (0 : ℕ) < 12 ∧ (12 : ℕ) < 2 ^ 128 ∧
      ∃ L : List (ℕ × ℕ), prime_factorize 12 = some L ∧
        (L.map fun pe => pe.1 ^ pe.2).prod = 12 ∧
        (∀ pe ∈ L, Nat.Prime pe.1 ∧ 0 < pe.2) ∧
        L.Pairwise (fun a b => a.1 < b.1) ∧
        ((12 : ℕ) = 1 → L = []) :=
  ⟨by norm_num, by norm_num,
    C8_prime_factorize_correct.2 12 (by norm_num) (by norm_num)⟩

/-! ## Units of ZMod and pow -/

theorem Residue.ext_val {x y : Residue} (h1 : x.value = y.value)
    (h2 : x.modulus = y.modulus) : x = y := by
  cases x
  cases y
  simp_all

theorem pow_min (s : Residue) (hv : s.valid) : pow s i128Min = none := by
  rw [pow.eq_def, if_pos hv, if_pos (by norm_num [i128Min]), if_pos rfl]

theorem pow_unit (p : ℕ) [hfact : Fact (Nat.Prime p)] (hp64 : p ≤ 2 ^ 64) (r : Residue)
    (hmr : r.modulus = p) (hv : r.valid) (u : (ZMod p)ˣ)
    (hu : (u : ZMod p) = (r.value : ZMod p)) (e : ℤ) (hne : e ≠ i128Min) :
    ∃ s : Residue, pow r e = some s ∧ s.modulus = p ∧ s.valid ∧
      (s.value : ZMod p) = ((u ^ e : (ZMod p)ˣ) : ZMod p) := by
  have hp : Nat.Prime p := hfact.out
  have hm : 0 < p := hp.pos
  have hw : (p - 1) * (p - 1) < u128Size := mul_self_pred_lt_u128 hp64
  have hcast_pow : ∀ t : Residue, t.modulus = p → t.valid →
      ∀ uu : (ZMod p)ˣ, (uu : ZMod p) = (t.value : ZMod p) → ∀ k : ℕ,
      ((t.value ^ k % p : ℕ) : ZMod p) = ((uu ^ k : (ZMod p)ˣ) : ZMod p) := by
    intro t _ _ uu huu k
    rw [ZMod.natCast_mod, Nat.cast_pow, ← huu, ← Units.val_pow_eq_pow_val]
  rcases lt_or_ge e 0 with he | he
  · -- negative exponent: one inversion then the loop
    have hnd : ¬p ∣ r.value := by
      intro hd
      have h0 : (r.value : ZMod p) = 0 := (ZMod.natCast_zmod_eq_zero_iff_dvd _ p).mpr hd
      rw [← hu] at h0
      exact Units.ne_zero u h0
    have hco : Nat.gcd r.value p = 1 :=
      Nat.coprime_comm.mp (hp.coprime_iff_not_dvd.mpr hnd)
    obtain ⟨c, hc, hcm, hcv, hcmul⟩ :=
      (inv_spec r hv (by rw [hmr]; exact lt_of_le_of_lt hp64 (by norm_num))).1
        (by rw [hmr]; exact hco)
    have hcmp : c.modulus = p := hcm.trans hmr
    have hcval : (c.value : ZMod p) = ((u⁻¹ : (ZMod p)ˣ) : ZMod p) := by
      have hz : ((c.value * r.value % r.modulus : ℕ) : ZMod p)
          = ((1 % r.modulus : ℕ) : ZMod p) := by rw [hcmul]
      rw [hmr] at hz
      rw [ZMod.natCast_mod, ZMod.natCast_mod, Nat.cast_mul, Nat.cast_one] at hz
      rw [← hu] at hz
      calc (c.value : ZMod p) = (c.value : ZMod p) * ((u : ZMod p) * ((u⁻¹ : (ZMod p)ˣ) : ZMod p)) := by
            rw [Units.mul_inv, mul_one]
        _ = ((c.value : ZMod p) * (u : ZMod p)) * ((u⁻¹ : (ZMod p)ˣ) : ZMod p) := by ring
        _ = 1 * ((u⁻¹ : (ZMod p)ˣ) : ZMod p) := by rw [hz]
        _ = ((u⁻¹ : (ZMod p)ˣ) : ZMod p) := one_mul _
    have hpow := pow_val p hm hw c hcmp hcv (-e) (by omega)
    refine ⟨⟨c.value ^ (-e).toNat % p, p⟩, ?_, rfl, Nat.mod_lt _ hm, ?_⟩
    · rw [pow_neg_eq r hv e he hne, hc, Option.some_bind]
      exact hpow
    · show ((c.value ^ (-e).toNat % p : ℕ) : ZMod p) = ((u ^ e : (ZMod p)ˣ) : ZMod p)
      rw [hcast_pow c hcmp hcv u⁻¹ hcval.symm (-e).toNat]
      congr 1
      rw [inv_pow, ← zpow_natCast u (-e).toNat, Int.toNat_of_nonneg (by omega : (0 : ℤ) ≤ -e),
        ← zpow_neg, neg_neg]
  · -- nonnegative exponent: the loop directly
    have hpow := pow_val p hm hw r hmr hv e he
    refine ⟨⟨r.value ^ e.toNat % p, p⟩, hpow, rfl, Nat.mod_lt _ hm, ?_⟩
    show ((r.value ^ e.toNat % p : ℕ) : ZMod p) = ((u ^ e : (ZMod p)ˣ) : ZMod p)
    rw [hcast_pow r hmr hv u hu e.toNat]
    congr 1
    rw [← zpow_natCast u e.toNat, Int.toNat_of_nonneg he]

/-! ## Claim C9 -/

set_option maxRecDepth 8000 in
/-- C9: Diffie-Hellman agreement.  For a prime modulus p (within the range
where the 128-bit arithmetic of the residue ring is exact) and a common base
that is a unit modulo p (every primitive root is one), the two parties
compute the same shared secret for every pair of private i128 secrets a and
b: raising the other party's share to one's own secret commutes.  When a
secret is the i128 minimum, both computations fail identically (pow has no
defined result there), so the two sides are still equal as computations. -/
theorem C9_diffie_hellman_agreement (p : ℕ) (hp : Nat.Prime p) (hp64 : p ≤ 2 ^ 64)
    (base : Residue) (hbm : base.modulus = p) (hbv : base.valid)
    (hb0 : base.value ≠ 0) (a b : ℤ) :
    ((pow base b).bind fun s => compute_shared_secret a s) =
      ((pow base a).bind fun s => compute_shared_secret b s) := by
  haveI : Fact (Nat.Prime p) := ⟨hp⟩
  have hnd : ¬p ∣ base.value := by
    intro hd
    have hle := Nat.le_of_dvd (Nat.pos_of_ne_zero hb0) hd
    have hlt : base.value < p := hbm ▸ hbv
    omega
  have hco : Nat.Coprime base.value p := Nat.coprime_comm.mp (hp.coprime_iff_not_dvd.mpr hnd)
  have hu : ((ZMod.unitOfCoprime base.value hco : (ZMod p)ˣ) : ZMod p)
      = (base.value : ZMod p) := ZMod.coe_unitOfCoprime _ hco
  by_cases hbmin : b = i128Min
  · by_cases hamin : a = i128Min
    · subst hbmin
      subst hamin
      rw [pow_min base hbv]
    · subst hbmin
      obtain ⟨s, hs, _, hsv, _⟩ :=
        pow_unit p hp64 base hbm hbv (ZMod.unitOfCoprime base.value hco) hu a hamin
      rw [pow_min base hbv, Option.none_bind, hs, Option.some_bind]
      show (none : Option Residue) = compute_shared_secret i128Min s
      unfold compute_shared_secret
      rw [pow_min s hsv]
  · by_cases hamin : a = i128Min
    · subst hamin
      obtain ⟨s, hs, _, hsv, _⟩ :=
        pow_unit p hp64 base hbm hbv (ZMod.unitOfCoprime base.value hco) hu b hbmin
      rw [hs, Option.some_bind, pow_min base hbv, Option.none_bind]
      show compute_shared_secret i128Min s = none
      unfold compute_shared_secret
      rw [pow_min s hsv]
    · obtain ⟨s1, hs1, hs1m, hs1v, hs1u⟩ :=
        pow_unit p hp64 base hbm hbv (ZMod.unitOfCoprime base.value hco) hu b hbmin
      obtain ⟨s2, hs2, hs2m, hs2v, hs2u⟩ :=
        pow_unit p hp64 base hbm hbv (ZMod.unitOfCoprime base.value hco) hu a hamin
      obtain ⟨w1, hw1, hw1m, hw1v, hw1u⟩ :=
        pow_unit p hp64 s1 hs1m hs1v (ZMod.unitOfCoprime base.value hco ^ b)
          hs1u.symm a hamin
      obtain ⟨w2, hw2, hw2m, hw2v, hw2u⟩ :=
        pow_unit p hp64 s2 hs2m hs2v (ZMod.unitOfCoprime base.value hco ^ a)
          hs2u.symm b hbmin
      rw [hs1, Option.some_bind, hs2, Option.some_bind]
      show compute_shared_secret a s1 = compute_shared_secret b s2
      unfold compute_shared_secret
      rw [hw1, hw2]
      have hcast : (w1.value : ZMod p) = (w2.value : ZMod p) := by
        rw [hw1u, hw2u]
        congr 1
        rw [← zpow_mul, ← zpow_mul, mul_comm]
      have hvals : w1.value = w2.value := by
        have e1 := ZMod.val_cast_of_lt (show w1.value < p from hw1m ▸ hw1v)
        have e2 := ZMod.val_cast_of_lt (show w2.value < p from hw2m ▸ hw2v)
        rw [← e1, ← e2, hcast]
      rw [Residue.ext_val hvals (hw1m.trans hw2m.symm)]

/-- C9 witness: the spec example modulus 997 with the unit base 7 and two
concrete secrets. -/
theorem C9_witness :
    Nat.Prime 997 ∧ (997 : ℕ) ≤ 2 ^ 64 ∧
      ((pow ⟨7, 997⟩ 15).bind fun s => compute_shared_secret (-4) s) =
        ((pow ⟨7, 997⟩ (-4)).bind fun s => compute_shared_secret 15 s) :=
  ⟨by norm_num, by norm_num,
    C9_diffie_hellman_agreement 997 (by norm_num) (by norm_num) ⟨7, 997⟩ rfl
      (by decide) (by decide) (-4) 15⟩

/-! ## Correctness of is_prime -/

theorem mod_eq_zero_of_dvd {a b : ℕ} (h : a ∣ b) : b % a = 0 := by
  obtain ⟨c, rfl⟩ := h
  exact Nat.mul_mod_right a c

theorem isPrimeLoop_overflow {n i : ℕ} (h : 2 ^ 128 ≤ i * i) :
    isPrimeLoop n i = none := by
  rw [isPrimeLoop.eq_def, if_pos h]

theorem isPrimeLoop_found {n i : ℕ} (h0 : ¬2 ^ 128 ≤ i * i) (h : i * i ≤ n)
    (hc : n % i = 0 ∨ n % (i + 2) = 0) : isPrimeLoop n i = some false := by
  rw [isPrimeLoop.eq_def, if_neg h0, dif_pos h, if_pos hc]

theorem isPrimeLoop_next {n i : ℕ} (h0 : ¬2 ^ 128 ≤ i * i) (h : i * i ≤ n)
    (hc : ¬(n % i = 0 ∨ n % (i + 2) = 0)) :
    isPrimeLoop n i = isPrimeLoop n (i + 6) := by
  rw [isPrimeLoop.eq_def, if_neg h0, dif_pos h, if_neg hc]

theorem isPrimeLoop_done {n i : ℕ} (h0 : ¬2 ^ 128 ≤ i * i) (h : ¬i * i ≤ n) :
    isPrimeLoop n i = some true := by
  rw [isPrimeLoop.eq_def, if_neg h0, dif_neg h]

theorem isPrimeLoop_complete (n : ℕ) : ∀ i, isPrimeLoop n i = some true → i % 6 = 5 →
    ∀ j, i ≤ j → j * j ≤ n → j % 6 = 5 ∨ j % 6 = 1 → ¬j ∣ n := by
  intro i
  induction i using isPrimeLoop.induct n with
  | case1 i h =>
    intro htrue
    rw [isPrimeLoop_overflow h] at htrue
    exact absurd htrue (by simp)
  | case2 i h0 h hc =>
    intro htrue
    rw [isPrimeLoop_found h0 h hc] at htrue
    exact absurd htrue (by simp)
  | case3 i h0 h hc ih =>
    intro htrue hi5 j hij hjj hj6 hdvd
    rw [isPrimeLoop_next h0 h hc] at htrue
    push_neg at hc
    by_cases hjlt : j < i + 6
    · rcases hj6 with hj5 | hj1
      · have hji : j = i := by omega
        subst hji
        exact hc.1 (mod_eq_zero_of_dvd hdvd)
      · have hji : j = i + 2 := by omega
        subst hji
        exact hc.2 (mod_eq_zero_of_dvd hdvd)
    · exact ih htrue (by omega) j (by omega) hjj hj6 hdvd
  | case4 i h0 h =>
    intro _ _ j hij hjj _ _
    exact h (le_trans (Nat.mul_le_mul hij hij) hjj)

theorem isPrimeLoop_sound (n : ℕ) (hp : Nat.Prime n) (hn : n ≤ 2 ^ 127) :
    ∀ i, 3 ≤ i → i * i < 2 ^ 128 → isPrimeLoop n i = some true := by
  intro i
  induction i using isPrimeLoop.induct n with
  | case1 i h =>
    intro _ hi2
    omega
  | case2 i h0 h hc =>
    intro hi3 _
    exfalso
    rcases hc with hc1 | hc2
    · have hdvd : i ∣ n := Nat.dvd_of_mod_eq_zero hc1
      rcases hp.eq_one_or_self_of_dvd i hdvd with h1 | hs
      · omega
      · subst hs
        nlinarith
    · have hdvd : i + 2 ∣ n := Nat.dvd_of_mod_eq_zero hc2
      rcases hp.eq_one_or_self_of_dvd (i + 2) hdvd with h1 | hs
      · omega
      · rw [← hs] at h
        nlinarith
  | case3 i h0 h hc ih =>
    intro hi3 _
    rw [isPrimeLoop_next h0 h hc]
    refine ih (by omega) ?_
    have hi64 : i ≤ 2 ^ 64 := by
      by_contra hgt
      push_neg at hgt
      have h1 : 2 ^ 64 * 2 ^ 64 ≤ i * i := Nat.mul_le_mul (by omega) (by omega)
      have hin : i * i ≤ 2 ^ 127 := le_trans h hn
      omega
    have hexp : (i + 6) * (i + 6) = i * i + 12 * i + 36 := by ring
    have hin : i * i ≤ 2 ^ 127 := le_trans h hn
    omega
  | case4 i h0 h =>
    intro _ _
    exact isPrimeLoop_done h0 h

theorem prime_mod_six {q : ℕ} (hq : Nat.Prime q) (h5 : 5 ≤ q) :
    q % 6 = 5 ∨ q % 6 = 1 := by
  have h2 : q % 2 ≠ 0 := by
    intro hh
    rcases hq.eq_one_or_self_of_dvd 2 (Nat.dvd_of_mod_eq_zero hh) with h | h <;> omega
  have h3 : q % 3 ≠ 0 := by
    intro hh
    rcases hq.eq_one_or_self_of_dvd 3 (Nat.dvd_of_mod_eq_zero hh) with h | h <;> omega
  omega

theorem is_prime_iff (n : ℕ) (hn : n ≤ 2 ^ 127) :
    is_prime n = some true ↔ Nat.Prime n := by
  constructor
  · intro ht
    unfold is_prime at ht
    by_cases hg : n = 0 ∨ n = 1 ∨ (n > 2 ∧ n % 2 = 0) ∨ (n > 3 ∧ n % 3 = 0)
    · rw [if_pos hg] at ht
      exact absurd ht (by simp)
    · rw [if_neg hg] at ht
      push_neg at hg
      by_contra hnp
      have hn2 : 2 ≤ n := by omega
      have hqp : Nat.Prime (Nat.minFac n) := Nat.minFac_prime (by omega)
      have hqd : Nat.minFac n ∣ n := Nat.minFac_dvd n
      have hqq : Nat.minFac n * Nat.minFac n ≤ n := by
        have hsq := Nat.minFac_sq_le_self (by omega : 0 < n) hnp
        rwa [pow_two] at hsq
      rcases Nat.lt_or_ge (Nat.minFac n) 5 with hq5 | hq5
      · have hq234 : Nat.minFac n = 2 ∨ Nat.minFac n = 3 ∨ Nat.minFac n = 4 := by
          have := hqp.two_le
          omega
        rcases hq234 with hq2 | hq3 | hq4
        · rw [hq2] at hqd hqq
          have hmod : n % 2 = 0 := mod_eq_zero_of_dvd hqd
          have hgt : n > 2 := by omega
          exact hg.2.2.1 hgt hmod
        · rw [hq3] at hqd hqq
          have hmod : n % 3 = 0 := mod_eq_zero_of_dvd hqd
          have hgt : n > 3 := by omega
          exact hg.2.2.2 hgt hmod
        · rw [hq4] at hqp
          exact absurd hqp (by norm_num)
      · exact isPrimeLoop_complete n 5 ht (by norm_num) (Nat.minFac n) hq5 hqq
          (prime_mod_six hqp hq5) hqd
  · intro hp
    have hg : ¬(n = 0 ∨ n = 1 ∨ (n > 2 ∧ n % 2 = 0) ∨ (n > 3 ∧ n % 3 = 0)) := by
      have h2 := hp.two_le
      push_neg
      refine ⟨by omega, by omega, ?_, ?_⟩
      · intro hn2 hmod
        rcases hp.eq_one_or_self_of_dvd 2 (Nat.dvd_of_mod_eq_zero hmod) with h | h <;> omega
      · intro hn3 hmod
        rcases hp.eq_one_or_self_of_dvd 3 (Nat.dvd_of_mod_eq_zero hmod) with h | h <;> omega
    unfold is_prime
    rw [if_neg hg]
    exact isPrimeLoop_sound n hp hn 5 (by norm_num) (by norm_num)

/-! ## Primitive roots -/

theorem prime_dvd_factor_list {q : ℕ} (hq : Nat.Prime q) :
    ∀ L : List (ℕ × ℕ), (∀ pe ∈ L, Nat.Prime pe.1) →
      q ∣ (L.map fun pe => pe.1 ^ pe.2).prod → ∃ pe ∈ L, q = pe.1 := by
  intro L
  induction L with
  | nil =>
    intro _ hdvd
    simp at hdvd
    exact absurd hdvd hq.ne_one
  | cons pe rest ih =>
    intro hmem hdvd
    simp only [List.map_cons, List.prod_cons] at hdvd
    rcases (Nat.Prime.dvd_mul hq).mp hdvd with h1 | h2
    · have hdq := hq.dvd_of_dvd_pow h1
      have heq := (Nat.prime_dvd_prime_iff_eq hq (hmem pe (by simp))).mp hdq
      exact ⟨pe, by simp, heq⟩
    · obtain ⟨pe', hpe', heq⟩ := ih (fun x hx => hmem x (by simp [hx])) h2
      exact ⟨pe', by simp [hpe'], heq⟩

theorem factor_fst_iff {n : ℕ} (h0 : 0 < n) (hn : n < 2 ^ 128) {L : List (ℕ × ℕ)}
    (hL : prime_factorize n = some L) :
    ∀ q, q ∈ L.map Prod.fst ↔ Nat.Prime q ∧ q ∣ n := by
  obtain ⟨L', hL', hprod, hmem, _⟩ := prime_factorize_spec n h0 hn
  rw [hL] at hL'
  have hLL : L = L' := Option.some_injective _ hL'
  subst hLL
  intro q
  constructor
  · intro hq
    rcases List.mem_map.mp hq with ⟨pe, hpe, hfst⟩
    obtain ⟨hp1, hp2⟩ := hmem pe hpe
    refine ⟨hfst ▸ hp1, ?_⟩
    have hdp : pe.1 ^ pe.2 ∣ n := by
      rw [← hprod]
      exact List.dvd_prod (List.mem_map.mpr ⟨pe, hpe, rfl⟩)
    exact hfst ▸ dvd_trans (dvd_pow_self pe.1 (by omega)) hdp
  · intro hqd
    rw [← hprod] at hqd
    obtain ⟨pe, hpe, heq⟩ :=
      prime_dvd_factor_list hqd.1 L (fun x hx => (hmem x hx).1) hqd.2
    exact List.mem_map.mpr ⟨pe, hpe, heq.symm⟩

theorem primitive_root_loop_accepts (m phi : ℕ) (primes : List ℕ) (one : Residue) :
    ∀ draws r, primitive_root_loop m phi primes one draws = some r →
      r.modulus = m ∧ r.value < m ∧
        ∀ q ∈ primes, ¬(pow r (toI128 (phi / q)) = some one) := by
  intro draws
  induction draws with
  | nil =>
    intro r h
    exact absurd h (by simp [primitive_root_loop])
  | cons d rest ih =>
    intro r h
    rw [primitive_root_loop] at h
    cases hfu : from_unsigned_integer d m with
    | none =>
      simp only [hfu] at h
      exact absurd h (by simp)
    | some nn =>
      simp only [hfu] at h
      by_cases hacc :
          primes.all (fun q => decide ¬(pow nn (toI128 (phi / q)) = some one)) = true
      · rw [if_pos hacc] at h
        have hr : nn = r := Option.some_injective _ h
        subst hr
        unfold from_unsigned_integer at hfu
        by_cases hm0 : m = 0
        · rw [if_pos hm0] at hfu
          exact absurd hfu (by simp)
        · rw [if_neg hm0] at hfu
          have hnn : (⟨d % m, m⟩ : Residue) = nn := Option.some_injective _ hfu
          refine ⟨by rw [← hnn], by rw [← hnn]; exact Nat.mod_lt d (by omega), ?_⟩
          intro q hq
          exact of_decide_eq_true (List.all_eq_true.mp hacc q hq)
      · rw [if_neg hacc] at h
        exact ih r h

theorem generator_powers (p : ℕ) [hfact : Fact (Nat.Prime p)] (hp64 : p ≤ 2 ^ 64)
    (r : Residue) (hrm : r.modulus = p) (hrv : r.valid)
    (hacc : ∀ q, Nat.Prime q → q ∣ p - 1 →
      ¬(pow r (((p - 1) / q : ℕ) : ℤ) = some ⟨1 % p, p⟩)) :
    ∀ k : ℕ, 1 ≤ k → k ≤ p - 2 → ¬(pow r (k : ℤ) = some ⟨1 % p, p⟩) := by
  intro k hk1 hk2 heq
  have hp : Nat.Prime p := hfact.out
  have hm : 0 < p := hp.pos
  have hp2 : 2 ≤ p := hp.two_le
  have hw := mul_self_pred_lt_u128 hp64
  have hval := pow_val p hm hw r hrm hrv (k : ℤ) (by exact_mod_cast Nat.zero_le k)
  rw [hval, Int.toNat_natCast] at heq
  have hveq : r.value ^ k % p = 1 % p :=
    congrArg Residue.value (Option.some_injective _ heq)
  have hcast : ((r.value : ZMod p)) ^ k = 1 := by
    have h1 : ((r.value ^ k % p : ℕ) : ZMod p) = ((1 % p : ℕ) : ZMod p) := by rw [hveq]
    rwa [ZMod.natCast_mod, ZMod.natCast_mod, Nat.cast_pow, Nat.cast_one] at h1
  rcases Nat.eq_zero_or_pos r.value with hv0 | hv0
  · rw [hv0, Nat.cast_zero, zero_pow (by omega : k ≠ 0)] at hcast
    exact zero_ne_one hcast
  · have hx0 : (r.value : ZMod p) ≠ 0 := by
      intro hz
      have hdvd := (ZMod.natCast_zmod_eq_zero_iff_dvd r.value p).mp hz
      have hle := Nat.le_of_dvd hv0 hdvd
      have hvlt : r.value < p := hrm ▸ hrv
      omega
    have hfermat : (r.value : ZMod p) ^ (p - 1) = 1 := ZMod.pow_card_sub_one_eq_one hx0
    have hdiv : ∀ q : ℕ, Nat.Prime q → q ∣ p - 1 →
        (r.value : ZMod p) ^ ((p - 1) / q) ≠ 1 := by
      intro q hq hqd hpow1
      apply hacc q hq hqd
      rw [pow_val p hm hw r hrm hrv (((p - 1) / q : ℕ) : ℤ)
        (by exact_mod_cast Nat.zero_le ((p - 1) / q)), Int.toNat_natCast]
      refine congrArg some (Residue.ext_val ?_ rfl)
      have hA : ((r.value ^ ((p - 1) / q) % p : ℕ) : ZMod p) = ((1 % p : ℕ) : ZMod p) := by
        rw [ZMod.natCast_mod, ZMod.natCast_mod, Nat.cast_pow, Nat.cast_one, hpow1]
      have e1 : ((r.value ^ ((p - 1) / q) % p : ℕ) : ZMod p).val
          = r.value ^ ((p - 1) / q) % p := ZMod.val_cast_of_lt (Nat.mod_lt _ hm)
      have e2 : ((1 % p : ℕ) : ZMod p).val = 1 % p := ZMod.val_cast_of_lt (Nat.mod_lt _ hm)
      rw [← e1, ← e2, hA]
    have horder : orderOf ((r.value : ZMod p)) = p - 1 :=
      orderOf_eq_of_pow_and_pow_div_prime (by omega) hfermat hdiv
    have hdvdk : orderOf ((r.value : ZMod p)) ∣ k := orderOf_dvd_iff_pow_eq_one.mpr hcast
    rw [horder] at hdvdk
    have hled := Nat.le_of_dvd (by omega) hdvdk
    omega

theorem primitive_root_prime_eq (p : ℕ) (hp : Nat.Prime p) (hlt : p ≤ 2 ^ 127)
    (draws : List ℕ) {L : List (ℕ × ℕ)} (hL : prime_factorize (p - 1) = some L) :
    primitive_root p draws =
      primitive_root_loop p (p - 1) (L.map Prod.fst) ⟨1 % p, p⟩ draws := by
  have hip : is_prime p = some true := (is_prime_iff p hlt).mpr hp
  have hlt2 : p < 2 ^ 128 := lt_of_le_of_lt hlt (by norm_num)
  unfold primitive_root
  simp only [hip, euler_totient_prime hp hlt2, hL, (from_unsigned_spec 1 p hp.pos).1]

/-! ## Claim C5 -/

/-- C5: for a modulus at most 2^64 (the range on which the 128-bit products
of pow are exact), primitive_root panics on every non-prime modulus; for a
prime modulus and any sequence of random draws, a returned residue r passed
the acceptance test r^((p-1)/q) differing from the residue one for every
prime divisor q of phi = p - 1, and consequently every power r^k with k
between 1 and p - 2 differs from the residue one.  (The original claim had
no range restriction; above 2^64 the squarings inside pow wrap around 2^128
and the acceptance test no longer certifies a primitive root: see the
counterexample.) -/
theorem C5_primitive_root_correct (m : ℕ) (hm : m ≤ 2 ^ 64) (draws : List ℕ) :
    (¬Nat.Prime m → primitive_root m draws = none) ∧
      ∀ r : Residue, Nat.Prime m → primitive_root m draws = some r →
        (∀ q : ℕ, Nat.Prime q → q ∣ m - 1 →
          ¬(pow r (((m - 1) / q : ℕ) : ℤ) = some ⟨1 % m, m⟩)) ∧
        ∀ k : ℕ, 1 ≤ k → k ≤ m - 2 → ¬(pow r (k : ℤ) = some ⟨1 % m, m⟩) := by
  have hm127 : m ≤ 2 ^ 127 := le_trans hm (by norm_num)
  constructor
  · intro hnp
    have hiff := is_prime_iff m hm127
    unfold primitive_root
    cases hip : is_prime m with
    | none => rfl
    | some b =>
      cases b with
      | false => rfl
      | true => exact absurd (hiff.mp hip) hnp
  · intro r hp hsome
    have hm2 := hp.two_le
    obtain ⟨L, hL, _, _, _⟩ := prime_factorize_spec (m - 1) (by omega) (by omega)
    rw [primitive_root_prime_eq m hp hm127 draws hL] at hsome
    obtain ⟨hrm, hrv, hacc⟩ :=
      primitive_root_loop_accepts m (m - 1) (L.map Prod.fst) ⟨1 % m, m⟩ draws r hsome
    have hfst := factor_fst_iff (n := m - 1) (by omega) (by omega) hL
    have hacc' : ∀ q : ℕ, Nat.Prime q → q ∣ m - 1 →
        ¬(pow r (((m - 1) / q : ℕ) : ℤ) = some ⟨1 % m, m⟩) := by
      intro q hq hqd
      have hdle := Nat.div_le_self (m - 1) q
      have hcast : toI128 ((m - 1) / q) = (((m - 1) / q : ℕ) : ℤ) := by
        apply toI128_of_lt
        omega
      rw [← hcast]
      exact hacc q ((hfst q).mpr ⟨hq, hqd⟩)
    refine ⟨hacc', ?_⟩
    haveI : Fact (Nat.Prime m) := ⟨hp⟩
    have hrvalid : r.valid := by
      show r.value < r.modulus
      rw [hrm]
      exact hrv
    exact generator_powers m hm r hrm hrvalid hacc'

/-- C5 witness: modulus 7 with a single draw. -/
theorem C5_witness :
    (7 : ℕ) ≤ 2 ^ 64 ∧
      ((¬Nat.Prime 7 → primitive_root 7 [3] = none) ∧
        ∀ r : Residue, Nat.Prime 7 → primitive_root 7 [3] = some r →
          (∀ q : ℕ, Nat.Prime q → q ∣ 7 - 1 →
            ¬(pow r (((7 - 1) / q : ℕ) : ℤ) = some ⟨1 % 7, 7⟩)) ∧
          ∀ k : ℕ, 1 ≤ k → k ≤ 7 - 2 → ¬(pow r (k : ℤ) = some ⟨1 % 7, 7⟩)) :=
  ⟨by norm_num, C5_primitive_root_correct 7 (by norm_num) [3]⟩

/-! ## C5 beyond the boundary: the counterexample at modulus 3 * 2^66 + 1 -/

theorem powModFuel_zero (m a b e : ℕ) : powModFuel m 0 a b e = b := rfl

theorem powModFuel_succ (m fuel a b e : ℕ) : powModFuel m (fuel + 1) a b e
    = if e = 0 then b
      else powModFuel m fuel (a * a % m) (if e % 2 = 1 then b * a % m else b) (e / 2) :=
  rfl

theorem powModFuel_val (m : ℕ) (hm : 0 < m) : ∀ fuel a b e : ℕ, b < m →
    e < 2 ^ fuel → powModFuel m fuel a b e = b * a ^ e % m := by
  intro fuel
  induction fuel with
  | zero =>
    intro a b e hb he
    have h1 : (2 : ℕ) ^ 0 = 1 := pow_zero 2
    have he0 : e = 0 := by omega
    subst he0
    rw [powModFuel_zero, pow_zero, Nat.mul_one, Nat.mod_eq_of_lt hb]
  | succ fuel ih =>
    intro a b e hb he
    by_cases he0 : e = 0
    · subst he0
      rw [powModFuel_succ, if_pos rfl, pow_zero, Nat.mul_one, Nat.mod_eq_of_lt hb]
    · rw [powModFuel_succ, if_neg he0]
      have hhalf : e / 2 < 2 ^ fuel := by
        have hps : (2 : ℕ) ^ (fuel + 1) = 2 ^ fuel * 2 := pow_succ 2 fuel
        omega
      by_cases hodd : e % 2 = 1
      · rw [if_pos hodd]
        rw [ih (a * a % m) (b * a % m) (e / 2) (Nat.mod_lt _ hm) hhalf]
        conv_rhs => rw [show e = 2 * (e / 2) + 1 by omega]
        have h1 : (b * a % m) * ((a * a % m) ^ (e / 2))
            ≡ b * a * (a * a) ^ (e / 2) [MOD m] :=
          Nat.ModEq.mul (Nat.mod_modEq _ _) (Nat.ModEq.pow _ (Nat.mod_modEq _ _))
        have h2 : b * a * (a * a) ^ (e / 2) = b * a ^ (2 * (e / 2) + 1) := by
          rw [pow_succ, pow_mul, pow_two]
          ring
        rw [h2] at h1
        exact h1
      · rw [if_neg hodd]
        rw [ih (a * a % m) b (e / 2) hb hhalf]
        conv_rhs => rw [show e = 2 * (e / 2) by omega]
        have h1 : b * ((a * a % m) ^ (e / 2))
            ≡ b * (a * a) ^ (e / 2) [MOD m] :=
          Nat.ModEq.mul (Nat.ModEq.refl _) (Nat.ModEq.pow _ (Nat.mod_modEq _ _))
        have h2 : b * (a * a) ^ (e / 2) = b * a ^ (2 * (e / 2)) := by
          rw [pow_mul, pow_two]
        rw [h2] at h1
        exact h1

theorem powModFuel_pow (m : ℕ) (hm : 1 < m) (fuel a e : ℕ) (he : e < 2 ^ fuel) :
    powModFuel m fuel a 1 e = a ^ e % m := by
  rw [powModFuel_val m (by omega) fuel a 1 e hm he, one_mul]

theorem powWrapFuel_zero (m a b e : ℕ) : powWrapFuel m 0 a b e = b := rfl

theorem powWrapFuel_succ (m fuel a b e : ℕ) : powWrapFuel m (fuel + 1) a b e
    = if e = 0 then b
      else powWrapFuel m fuel (a * a % u128Size % m)
        (if e % 2 = 1 then b * a % u128Size % m else b) (e / 2) :=
  rfl

theorem powLoop_eq_wrapFuel : ∀ fuel e : ℕ, ∀ a b : Residue,
    b.modulus = a.modulus → a.valid → b.valid → e < 2 ^ fuel →
    powLoop a b e = some ⟨powWrapFuel a.modulus fuel a.value b.value e, a.modulus⟩ := by
  intro fuel
  induction fuel with
  | zero =>
    intro e a b hbm hav hbv he
    have h1 : (2 : ℕ) ^ 0 = 1 := pow_zero 2
    have he0 : e = 0 := by omega
    subst he0
    rw [powLoop_zero, powWrapFuel_zero]
    exact congrArg some (Residue.ext_val rfl hbm)
  | succ fuel ih =>
    intro e a b hbm hav hbv he
    by_cases he0 : e = 0
    · subst he0
      rw [powLoop_zero, powWrapFuel_succ, if_pos rfl]
      exact congrArg some (Residue.ext_val rfl hbm)
    · obtain ⟨htaa, hvaa⟩ := times_eval a a hav hav rfl
      obtain ⟨htba, hvba⟩ := times_eval b a hbv hav hbm
      rw [hbm] at htba hvba
      have hhalf : e / 2 < 2 ^ fuel := by
        have hps : (2 : ℕ) ^ (fuel + 1) = 2 ^ fuel * 2 := pow_succ 2 fuel
        omega
      rw [powWrapFuel_succ, if_neg he0]
      by_cases hodd : e % 2 = 1
      · rw [if_pos hodd]
        rw [powLoop_step a b e he0 _ _ (by rw [if_pos hodd]; exact htba) htaa]
        exact ih (e / 2) ⟨a.value * a.value % u128Size % a.modulus, a.modulus⟩
          ⟨b.value * a.value % u128Size % a.modulus, a.modulus⟩ rfl hvaa hvba hhalf
      · rw [if_neg hodd]
        rw [powLoop_step a b e he0 _ _ (by rw [if_neg hodd]) htaa]
        exact ih (e / 2) ⟨a.value * a.value % u128Size % a.modulus, a.modulus⟩ b
          hbm hvaa hbv hhalf

set_option maxRecDepth 100000 in
theorem powWrap_run_half :
    powWrapFuel (3 * 2 ^ 66 + 1) 67 4 1 (3 * 2 ^ 65) = 0 := by rfl

set_option maxRecDepth 100000 in
theorem powWrap_run_third :
    powWrapFuel (3 * 2 ^ 66 + 1) 67 4 1 (2 ^ 66) = 0 := by rfl

set_option maxRecDepth 100000 in
theorem powMod_run_four :
    powModFuel (3 * 2 ^ 66 + 1) 67 4 1 (3 * 2 ^ 65) = 1 := by rfl

set_option maxRecDepth 100000 in
theorem powMod_run_fermat :
    powModFuel (3 * 2 ^ 66 + 1) 68 10 1 (3 * 2 ^ 66) = 1 := by rfl

set_option maxRecDepth 100000 in
theorem powMod_run_half :
    powModFuel (3 * 2 ^ 66 + 1) 67 10 1 (3 * 2 ^ 65) = 3 * 2 ^ 66 := by rfl

set_option maxRecDepth 100000 in
theorem powMod_run_third :
    powModFuel (3 * 2 ^ 66 + 1) 67 10 1 (2 ^ 66) = 110680464429372407808 := by rfl

theorem zmod_pow_eq (m a e : ℕ) :
    ((a : ZMod m)) ^ e = ((a ^ e % m : ℕ) : ZMod m) := by
  rw [ZMod.natCast_mod, Nat.cast_pow]

theorem prime_dvd_3_2_66 {q : ℕ} (hq : Nat.Prime q) (hd : q ∣ 3 * 2 ^ 66) :
    q = 2 ∨ q = 3 := by
  rcases (Nat.Prime.dvd_mul hq).mp hd with h3 | h2
  · right
    exact (Nat.prime_dvd_prime_iff_eq hq (by norm_num)).mp h3
  · left
    have hdd := hq.dvd_of_dvd_pow h2
    exact (Nat.prime_dvd_prime_iff_eq hq (by norm_num)).mp hdd

set_option maxRecDepth 100000 in
theorem prime_p66 : Nat.Prime (3 * 2 ^ 66 + 1) := by
  have hval1 : (10 : ℕ) ^ (3 * 2 ^ 66) % (3 * 2 ^ 66 + 1) = 1 :=
    (powModFuel_pow (3 * 2 ^ 66 + 1) (by norm_num) 68 10 (3 * 2 ^ 66)
      (by norm_num)).symm.trans powMod_run_fermat
  have hval2 : (10 : ℕ) ^ (3 * 2 ^ 65) % (3 * 2 ^ 66 + 1) = 3 * 2 ^ 66 :=
    (powModFuel_pow (3 * 2 ^ 66 + 1) (by norm_num) 67 10 (3 * 2 ^ 65)
      (by norm_num)).symm.trans powMod_run_half
  have hval3 : (10 : ℕ) ^ (2 ^ 66) % (3 * 2 ^ 66 + 1) = 110680464429372407808 :=
    (powModFuel_pow (3 * 2 ^ 66 + 1) (by norm_num) 67 10 (2 ^ 66)
      (by norm_num)).symm.trans powMod_run_third
  have hp1 : (3 * 2 ^ 66 + 1 : ℕ) - 1 = 3 * 2 ^ 66 := by norm_num
  refine lucas_primality (3 * 2 ^ 66 + 1) ((10 : ℕ) : ZMod (3 * 2 ^ 66 + 1)) ?_ ?_
  · rw [hp1, zmod_pow_eq, hval1, Nat.cast_one]
  · intro q hq hqd
    rw [hp1] at hqd
    rcases prime_dvd_3_2_66 hq hqd with hq2 | hq3
    · subst hq2
      rw [hp1, show (3 * 2 ^ 66 : ℕ) / 2 = 3 * 2 ^ 65 from by norm_num,
        zmod_pow_eq, hval2]
      intro hcon
      haveI : Fact (1 < 3 * 2 ^ 66 + 1) := ⟨by norm_num⟩
      have hv := congrArg ZMod.val hcon
      have e1 : ((3 * 2 ^ 66 : ℕ) : ZMod (3 * 2 ^ 66 + 1)).val = 3 * 2 ^ 66 :=
        ZMod.val_cast_of_lt (by norm_num)
      rw [e1, ZMod.val_one] at hv
      norm_num at hv
    · subst hq3
      rw [hp1, show (3 * 2 ^ 66 : ℕ) / 3 = 2 ^ 66 from by norm_num,
        zmod_pow_eq, hval3]
      intro hcon
      haveI : Fact (1 < 3 * 2 ^ 66 + 1) := ⟨by norm_num⟩
      have hv := congrArg ZMod.val hcon
      have e1 : ((110680464429372407808 : ℕ) : ZMod (3 * 2 ^ 66 + 1)).val
          = 110680464429372407808 :=
        ZMod.val_cast_of_lt (by norm_num)
      rw [e1, ZMod.val_one] at hv
      norm_num at hv

set_option maxRecDepth 100000 in
theorem pow_c5_half :
    pow ⟨4, 3 * 2 ^ 66 + 1⟩ ((3 * 2 ^ 65 : ℕ) : ℤ) = some ⟨0, 3 * 2 ^ 66 + 1⟩ := by
  have hval : (⟨4, 3 * 2 ^ 66 + 1⟩ : Residue).valid := by
    show (4 : ℕ) < 3 * 2 ^ 66 + 1
    norm_num
  have hbv : (⟨1, 3 * 2 ^ 66 + 1⟩ : Residue).valid := by
    show (1 : ℕ) < 3 * 2 ^ 66 + 1
    norm_num
  have hstep : pow ⟨4, 3 * 2 ^ 66 + 1⟩ ((3 * 2 ^ 65 : ℕ) : ℤ)
      = powLoop ⟨4, 3 * 2 ^ 66 + 1⟩ ⟨1, 3 * 2 ^ 66 + 1⟩ (3 * 2 ^ 65) := by
    rw [pow_nonneg_eq ⟨4, 3 * 2 ^ 66 + 1⟩ hval _ (by positivity), Int.toNat_natCast]
    norm_num
  rw [hstep, powLoop_eq_wrapFuel 67 (3 * 2 ^ 65) ⟨4, 3 * 2 ^ 66 + 1⟩
    ⟨1, 3 * 2 ^ 66 + 1⟩ rfl hval hbv (by norm_num)]
  exact congrArg some (Residue.ext_val powWrap_run_half rfl)

set_option maxRecDepth 100000 in
theorem pow_c5_third :
    pow ⟨4, 3 * 2 ^ 66 + 1⟩ ((2 ^ 66 : ℕ) : ℤ) = some ⟨0, 3 * 2 ^ 66 + 1⟩ := by
  have hval : (⟨4, 3 * 2 ^ 66 + 1⟩ : Residue).valid := by
    show (4 : ℕ) < 3 * 2 ^ 66 + 1
    norm_num
  have hbv : (⟨1, 3 * 2 ^ 66 + 1⟩ : Residue).valid := by
    show (1 : ℕ) < 3 * 2 ^ 66 + 1
    norm_num
  have hstep : pow ⟨4, 3 * 2 ^ 66 + 1⟩ ((2 ^ 66 : ℕ) : ℤ)
      = powLoop ⟨4, 3 * 2 ^ 66 + 1⟩ ⟨1, 3 * 2 ^ 66 + 1⟩ (2 ^ 66) := by
    rw [pow_nonneg_eq ⟨4, 3 * 2 ^ 66 + 1⟩ hval _ (by positivity), Int.toNat_natCast]
    norm_num
  rw [hstep, powLoop_eq_wrapFuel 67 (2 ^ 66) ⟨4, 3 * 2 ^ 66 + 1⟩
    ⟨1, 3 * 2 ^ 66 + 1⟩ rfl hval hbv (by norm_num)]
  exact congrArg some (Residue.ext_val powWrap_run_third rfl)

set_option maxRecDepth 100000 in
theorem primitive_root_c5_run :
    primitive_root (3 * 2 ^ 66 + 1) [4] = some ⟨4, 3 * 2 ^ 66 + 1⟩ := by
  have hp : Nat.Prime (3 * 2 ^ 66 + 1) := prime_p66
  obtain ⟨L, hL, _, _, _⟩ := prime_factorize_spec ((3 * 2 ^ 66 + 1) - 1)
    (by norm_num) (by norm_num)
  have hfst := factor_fst_iff (n := (3 * 2 ^ 66 + 1) - 1) (by norm_num)
    (by norm_num) hL
  rw [primitive_root_prime_eq (3 * 2 ^ 66 + 1) hp (by norm_num) [4] hL]
  rw [primitive_root_loop]
  have hfu : from_unsigned_integer 4 (3 * 2 ^ 66 + 1)
      = some ⟨4, 3 * 2 ^ 66 + 1⟩ := by
    have h := (from_unsigned_spec 4 (3 * 2 ^ 66 + 1) (by norm_num)).1
    rwa [show (4 : ℕ) % (3 * 2 ^ 66 + 1) = 4 from by norm_num] at h
  simp only [hfu]
  have hacc : (L.map Prod.fst).all
      (fun q => decide ¬(pow ⟨4, 3 * 2 ^ 66 + 1⟩
        (toI128 (((3 * 2 ^ 66 + 1) - 1) / q))
          = some ⟨1 % (3 * 2 ^ 66 + 1), 3 * 2 ^ 66 + 1⟩)) = true := by
    apply List.all_eq_true.mpr
    intro q hq
    apply decide_eq_true
    obtain ⟨hqp, hqd⟩ := (hfst q).mp hq
    rw [show (3 * 2 ^ 66 + 1 : ℕ) - 1 = 3 * 2 ^ 66 from by norm_num] at hqd
    rw [show (3 * 2 ^ 66 + 1 : ℕ) - 1 = 3 * 2 ^ 66 from by norm_num,
      show (1 : ℕ) % (3 * 2 ^ 66 + 1) = 1 from by norm_num]
    rcases prime_dvd_3_2_66 hqp hqd with hq2 | hq3
    · subst hq2
      rw [show (3 * 2 ^ 66 : ℕ) / 2 = 3 * 2 ^ 65 from by norm_num,
        show toI128 (3 * 2 ^ 65) = ((3 * 2 ^ 65 : ℕ) : ℤ) from toI128_of_lt
          (by norm_num),
        pow_c5_half]
      intro hcon
      have hv := congrArg Residue.value (Option.some_injective _ hcon)
      norm_num at hv
    · subst hq3
      rw [show (3 * 2 ^ 66 : ℕ) / 3 = 2 ^ 66 from by norm_num,
        show toI128 (2 ^ 66) = ((2 ^ 66 : ℕ) : ℤ) from toI128_of_lt (by norm_num),
        pow_c5_third]
      intro hcon
      have hv := congrArg Residue.value (Option.some_injective _ hcon)
      norm_num at hv
  rw [if_pos hacc]

set_option maxRecDepth 100000 in
/-- C5 counterexample: the prime modulus 3 * 2^66 + 1 lies above the 2^64
exactness boundary of the 128-bit products inside times, so the squarings
inside pow wrap around 2^128.  With that wrap the source accepts the draw 4:
both test powers 4^(phi/2) and 4^(phi/3) evaluate (wrapped) to the residue 0,
which differs from the residue one, so primitive_root returns the residue 4.
But 4 is a quadratic residue: its true power 4^((p-1)/2) is congruent to 1
mod p although (p-1)/2 lies between 1 and p-2, so the returned residue is
not a primitive root and the claimed property of the powers 1..p-2 fails. -/
theorem C5_counterexample :
    Nat.Prime (3 * 2 ^ 66 + 1) ∧
      primitive_root (3 * 2 ^ 66 + 1) [4] = some ⟨4, 3 * 2 ^ 66 + 1⟩ ∧
      1 ≤ 3 * 2 ^ 65 ∧ 3 * 2 ^ 65 ≤ (3 * 2 ^ 66 + 1) - 2 ∧
      4 ^ (3 * 2 ^ 65) % (3 * 2 ^ 66 + 1) = 1 % (3 * 2 ^ 66 + 1) := by
  refine ⟨prime_p66, primitive_root_c5_run, by norm_num, by norm_num, ?_⟩
  have h : (4 : ℕ) ^ (3 * 2 ^ 65) % (3 * 2 ^ 66 + 1) = 1 :=
    (powModFuel_pow (3 * 2 ^ 66 + 1) (by norm_num) 67 4 (3 * 2 ^ 65)
      (by norm_num)).symm.trans powMod_run_four
  rw [h]
  norm_num

end BadRoll
